import Mathlib

/-!
# Singleton pattern (Go): lazy logger and eager config

A shallow embedding of `mylazylogger/logger.go`, `myconfig/config.go` and the
goroutines of `main.go`.

* A Go pointer is an address into a heap of objects, or `nil`.  The heap is a
  list; the address of an object is its index; allocation appends.
* `time.Now()` is an input of the environment: every call that may read the
  clock takes the value the clock would show.
* The console is part of the package state, one `Line` per `fmt` call.
* `time.Sleep` only delays and is not represented in the sequential model; in
  the interleaving model other goroutines may run before and after the
  allocation step of `newLogger`.
-/

/-- A reading of the clock (`time.Time`). -/
abbrev Time := Nat

/-- A Go pointer: `none` is `nil`, `some a` is the address `a` in the heap. -/
abbrev Ptr := Option Nat

namespace mylazylogger

/-- The struct `Logger` of logger.go. -/
structure Logger where
  initTime : Time
  logs : List String
deriving DecidableEq, Repr

/-- One line written to the console by the package. -/
inductive Line where
  /-- The line "mylazylogger: GetInstance() called." -/
  | getInstanceCalled
  /-- The line "mylazylogger: once.Do() executing - actual creation happening now." -/
  | onceDoExecuting
  /-- The line "mylazylogger: newLogger() called - Heavy initialization logic here..." -/
  | newLoggerCalled
  /-- The line "[initTime] LOG: message" written by `Log`. -/
  | log (initTime : Time) (message : String)
  /-- The line "Goroutine id trying to get logger instance..." of main.go. -/
  | goroutineTrying (id : Nat)
deriving DecidableEq, Repr

/-- The state of a `sync.Once`: the `done` flag and whether its mutex `m` is held. -/
structure Once where
  done : Bool
  m : Bool
deriving DecidableEq, Repr

/-- The package state: the heap of `Logger` objects, the package variables
`instance` and `once`, the console, and a counter of the executions of
`newLogger`. -/
structure Pkg where
  heap : List Logger
  instanceSlot : Ptr
  once : Once
  newLoggerCalls : Nat
  stdout : List Line
deriving DecidableEq, Repr

/-- The package state before any call: `instance` is nil, `once` is the zero
`sync.Once`. -/
def initPkg : Pkg :=
  { heap := [], instanceSlot := none, once := { done := false, m := false },
    newLoggerCalls := 0, stdout := [] }

/-- The function `fmt.Println` / `fmt.Printf`: one more line on the console. -/
def println (ln : Line) (s : Pkg) : Pkg :=
  { s with stdout := s.stdout ++ [ln] }

/-- The function `newLogger`: prints, then allocates
`&Logger{initTime: time.Now(), logs: make([]string, 0)}` and returns its address. -/
def newLogger (now : Time) (s : Pkg) : Nat × Pkg :=
  let s1 := println Line.newLoggerCalled s
  (s1.heap.length,
    { s1 with heap := s1.heap ++ [{ initTime := now, logs := [] }],
              newLoggerCalls := s1.newLoggerCalls + 1 })

/-- The closure passed to `once.Do` in `GetInstance`: prints, then
`instance = newLogger()`. -/
def initClosure (now : Time) (s : Pkg) : Pkg :=
  let s1 := println Line.onceDoExecuting s
  let r := newLogger now s1
  { r.2 with instanceSlot := some r.1 }

/-- The method `sync.Once.Do` run by a single goroutine on the package's `once`:
when `done` is unset it runs `f` and then sets `done`; otherwise it does nothing.
(The mutex of the slow path is taken and released inside the call.) -/
def onceDo (f : Pkg → Pkg) (s : Pkg) : Pkg :=
  if s.once.done then s
  else
    let s1 := f s
    { s1 with once := { s1.once with done := true } }

/-- The function `GetInstance` of logger.go: prints, runs the closure through
`once.Do`, returns `instance`. -/
def GetInstance (now : Time) (s : Pkg) : Ptr × Pkg :=
  let s1 := println Line.getInstanceCalled s
  let s2 := onceDo (initClosure now) s1
  (s2.instanceSlot, s2)

/-- The body of `(*Logger).Log` on the pointee: `l.logs = append(l.logs, message)`,
and the line it prints. -/
def Logger.appendLog (l : Logger) (message : String) : Logger × Line :=
  ({ l with logs := l.logs ++ [message] }, Line.log l.initTime message)

/-- The method `(*Logger).Log`: `none` when the receiver is nil or dangling (the
dereference panics). -/
def Logger.Log (l : Ptr) (message : String) (s : Pkg) : Option Pkg :=
  match l with
  | none => none
  | some a =>
    match s.heap[a]? with
    | none => none
    | some lg =>
      let r := lg.appendLog message
      some (println r.2 { s with heap := s.heap.set a r.1 })

/-- The method `(*Logger).GetInitTime`: `none` when the receiver is nil or
dangling. -/
def Logger.GetInitTime (l : Ptr) (s : Pkg) : Option Time :=
  match l with
  | none => none
  | some a => (s.heap[a]?).map Logger.initTime

/-! ### A sequential client -/

/-- One call of a client of the package.  `log k message` and `getInitTime k`
are made on the reference returned by the client's `k`-th call of
`GetInstance` (counted from 0). -/
inductive Call where
  | getInstance (now : Time)
  | log (k : Nat) (message : String)
  | getInitTime (k : Nat)
deriving DecidableEq, Repr

/-- A client together with the package: the references the client got from
`GetInstance`, in call order, and the values `GetInitTime` returned to it. -/
structure Sys where
  pkg : Pkg
  returned : List Ptr
  times : List Time
deriving DecidableEq, Repr

/-- The client before its first call. -/
def initSys : Sys := { pkg := initPkg, returned := [], times := [] }

/-- The reference the client holds in its `k`-th variable; a variable that was
never assigned holds nil. -/
def Sys.ref (s : Sys) (k : Nat) : Ptr := (s.returned[k]?).getD none

/-- One call; `none` when it panics. -/
def applyCall (c : Call) (s : Sys) : Option Sys :=
  match c with
  | Call.getInstance now =>
    let r := GetInstance now s.pkg
    some { s with pkg := r.2, returned := s.returned ++ [r.1] }
  | Call.log k message =>
    (Logger.Log (s.ref k) message s.pkg).map fun p => { s with pkg := p }
  | Call.getInitTime k =>
    (Logger.GetInitTime (s.ref k) s.pkg).map fun t => { s with times := s.times ++ [t] }

/-- A sequence of calls, in order; `none` as soon as one panics. -/
def runCalls : List Call → Sys → Option Sys
  | [], s => some s
  | c :: cs, s => (applyCall c s).bind (runCalls cs)

/-- Every `log` and `getInitTime` of the sequence is made on a reference the
client already obtained; `n` is the number of references obtained before. -/
def wellFormed : Nat → List Call → Bool
  | _, [] => true
  | n, Call.getInstance _ :: cs => wellFormed (n + 1) cs
  | n, Call.log k _ :: cs => decide (k < n) && wellFormed n cs
  | n, Call.getInitTime k :: cs => decide (k < n) && wellFormed n cs

/-- The number of `GetInstance` calls in a sequence. -/
def countGet : List Call → Nat
  | [] => 0
  | Call.getInstance _ :: cs => countGet cs + 1
  | _ :: cs => countGet cs

/-- The clock value handed to the first `GetInstance` call of a sequence. -/
def firstNow : List Call → Option Time
  | [] => none
  | Call.getInstance now :: _ => some now
  | _ :: cs => firstNow cs

/-- The number of `GetInitTime` calls in a sequence. -/
def countInitTime : List Call → Nat
  | [] => 0
  | Call.getInitTime _ :: cs => countInitTime cs + 1
  | _ :: cs => countInitTime cs

/-- The messages of the `log` calls of a sequence, in call order. -/
def loggedMessages : List Call → List String
  | [] => []
  | Call.log _ message :: cs => message :: loggedMessages cs
  | _ :: cs => loggedMessages cs

/-- The calls `l.Log(m1); ...; l.Log(mk)` in order; `none` as soon as one panics. -/
def logAll : List String → Ptr → Pkg → Option Pkg
  | [], _, s => some s
  | message :: ms, l, s => (Logger.Log l message s).bind (logAll ms l)

/-! ### Invariants of the sequential client -/

/-- The state before the first `GetInstance`: nothing built, nothing returned. -/
def Fresh (s : Sys) : Prop :=
  s.pkg.once.done = false ∧ s.pkg.instanceSlot = none ∧ s.pkg.heap = [] ∧
  s.pkg.newLoggerCalls = 0 ∧ s.returned = [] ∧ s.pkg.stdout.count Line.newLoggerCalled = 0

/-- The state after the construction at clock value `t0`, with `logs` the
messages logged since: the gate has fired, the slot holds the address of the
only `Logger` on the heap, and every reference handed out is that address. -/
def Built (t0 : Time) (logs : List String) (s : Sys) : Prop :=
  s.pkg.once.done = true ∧ s.pkg.instanceSlot = some 0 ∧
  s.pkg.heap = [{ initTime := t0, logs := logs }] ∧
  s.pkg.newLoggerCalls = 1 ∧ (∀ r ∈ s.returned, r = some 0) ∧
  s.pkg.stdout.count Line.newLoggerCalled = 1

/-! ### Goroutines: the interleaving semantics

Each goroutine runs one statement-level step at a time; a schedule picks which
goroutine moves next.  `sync.Once.Do` is the standard library's:

    func (o *Once) Do(f func()) { if o.done.Load() == 0 { o.doSlow(f) } }
    func (o *Once) doSlow(f func()) {
        o.m.Lock(); defer o.m.Unlock()
        if o.done.Load() == 0 { defer o.done.Store(1); f() }
    }

A console write is taken together with the step that follows or precedes it.
-/

/-- What a goroutine runs: a bare call of `GetInstance`, or the body of the
`go func(id int)` of main.go. -/
inductive Kind where
  | caller
  | worker (id : Nat)
deriving DecidableEq, Repr

/-- The string `fmt.Sprintf("Message from goroutine %d, logger init time: %s", id, t)`
built by a worker.  `render t` is the text that `%s` prints for the `time.Time`
value `t`; it is a parameter of the semantics and is not computed here. -/
def message (render : Time → String) (id : Nat) (t : Time) : String :=
  "Message from goroutine " ++ toString id ++ ", logger init time: " ++ render t

/-- The program point of a goroutine: the statement it executes next. -/
inductive PC where
  /-- main.go: the worker's `fmt.Printf("Goroutine %d trying ...")`. -/
  | start
  /-- The `fmt.Println` at the head of `GetInstance`. -/
  | enter
  /-- The test `o.done.Load() == 0` of `Do`. -/
  | doLoad
  /-- The call `o.m.Lock()` of `doSlow`. -/
  | lock
  /-- The test `o.done.Load() == 0` of `doSlow`, the mutex held. -/
  | check
  /-- The closure: `fmt.Println("... once.Do() executing ...")`. -/
  | runF
  /-- The call `newLogger()`: print, sleep, allocate with `time.Now()`. -/
  | alloc
  /-- The assignment `instance = ` the address returned by `newLogger`. -/
  | assign (a : Nat)
  /-- The deferred `o.done.Store(1)`. -/
  | store
  /-- The deferred `o.m.Unlock()`. -/
  | unlock
  /-- The statement `return instance`. -/
  | ret
  /-- main.go: the argument `logger.GetInitTime()`. -/
  | getInitTime
  /-- In `Log`: the read of `l.logs` in `append(l.logs, message)`. -/
  | logLoad (message : String)
  /-- In `Log`: the write `l.logs = ` the appended slice, then the `fmt.Printf`. -/
  | logStore (message : String) (old : List String)
  /-- The goroutine has returned. -/
  | finished
  /-- The goroutine dereferenced a nil or dangling pointer. -/
  | panicked
deriving DecidableEq, Repr

/-- A goroutine: its program point, what it runs, and its local variable
`logger` (the result of `GetInstance`, nil before the call returns). -/
structure Goroutine where
  pc : PC
  kind : Kind
  logger : Ptr
deriving DecidableEq, Repr

/-- The goroutines and the package state they share. -/
structure Conc where
  pkg : Pkg
  gs : List Goroutine
deriving DecidableEq, Repr

/-- The program points at which the goroutine holds the mutex of `once`. -/
def inCS : PC → Bool
  | PC.check | PC.runF | PC.alloc | PC.assign _ | PC.store | PC.unlock => true
  | _ => false

/-- One step of a goroutine on the shared state; `now` is what `time.Now()`
would return, `render` the text of a time.  `none` when the goroutine cannot
move: it has ended, or it waits for the mutex. -/
def stepG (render : Time → String) (now : Time) (g : Goroutine) (p : Pkg) :
    Option (Goroutine × Pkg) :=
  match g.pc with
  | PC.start =>
    match g.kind with
    | Kind.caller => some ({ g with pc := PC.enter }, p)
    | Kind.worker id => some ({ g with pc := PC.enter }, println (Line.goroutineTrying id) p)
  | PC.enter => some ({ g with pc := PC.doLoad }, println Line.getInstanceCalled p)
  | PC.doLoad => some ({ g with pc := if p.once.done then PC.ret else PC.lock }, p)
  | PC.lock =>
    if p.once.m then none
    else some ({ g with pc := PC.check }, { p with once := { p.once with m := true } })
  | PC.check => some ({ g with pc := if p.once.done then PC.unlock else PC.runF }, p)
  | PC.runF => some ({ g with pc := PC.alloc }, println Line.onceDoExecuting p)
  | PC.alloc => some ({ g with pc := PC.assign (newLogger now p).1 }, (newLogger now p).2)
  | PC.assign a => some ({ g with pc := PC.store }, { p with instanceSlot := some a })
  | PC.store => some ({ g with pc := PC.unlock }, { p with once := { p.once with done := true } })
  | PC.unlock => some ({ g with pc := PC.ret }, { p with once := { p.once with m := false } })
  | PC.ret =>
    match g.kind with
    | Kind.caller => some ({ g with pc := PC.finished, logger := p.instanceSlot }, p)
    | Kind.worker _ => some ({ g with pc := PC.getInitTime, logger := p.instanceSlot }, p)
  | PC.getInitTime =>
    match g.kind, Logger.GetInitTime g.logger p with
    | Kind.worker id, some t => some ({ g with pc := PC.logLoad (message render id t) }, p)
    | Kind.caller, some _ => some ({ g with pc := PC.finished }, p)
    | _, none => some ({ g with pc := PC.panicked }, p)
  | PC.logLoad msg =>
    match g.logger.bind fun a => p.heap[a]? with
    | some lg => some ({ g with pc := PC.logStore msg lg.logs }, p)
    | none => some ({ g with pc := PC.panicked }, p)
  | PC.logStore msg old =>
    match g.logger with
    | none => some ({ g with pc := PC.panicked }, p)
    | some a =>
      match p.heap[a]? with
      | none => some ({ g with pc := PC.panicked }, p)
      | some lg =>
        some ({ g with pc := PC.finished },
          println (Line.log lg.initTime msg)
            { p with heap := p.heap.set a { lg with logs := old ++ [msg] } })
  | PC.finished => none
  | PC.panicked => none

/-- One scheduling event: goroutine `ev.1` is given the processor, the clock
showing `ev.2`.  Nothing happens when that goroutine cannot move. -/
def step (render : Time → String) (s : Conc) (ev : Nat × Time) : Conc :=
  match s.gs[ev.1]? with
  | none => s
  | some g =>
    match stepG render ev.2 g s.pkg with
    | none => s
    | some r => { pkg := r.2, gs := s.gs.set ev.1 r.1 }

/-- A schedule, event by event. -/
def run (render : Time → String) (sched : List (Nat × Time)) (s : Conc) : Conc :=
  sched.foldl (step render) s

/-- The goroutines just spawned, on the initial package state. -/
def spawn (kinds : List Kind) : Conc :=
  { pkg := initPkg, gs := kinds.map fun k => { pc := PC.start, kind := k, logger := none } }

/-- The five goroutines started by `main`. -/
def mainWorkers : List Kind :=
  [Kind.worker 0, Kind.worker 1, Kind.worker 2, Kind.worker 3, Kind.worker 4]

/-- Every goroutine has returned. -/
def allFinished (s : Conc) : Bool := s.gs.all fun g => decide (g.pc = PC.finished)

/-- The number of steps a goroutine at this program point can still take, at most. -/
def rank : PC → Nat
  | PC.start => 15
  | PC.enter => 14
  | PC.doLoad => 13
  | PC.lock => 12
  | PC.check => 11
  | PC.runF => 10
  | PC.alloc => 9
  | PC.assign _ => 8
  | PC.store => 7
  | PC.unlock => 6
  | PC.ret => 5
  | PC.getInitTime => 4
  | PC.logLoad _ => 3
  | PC.logStore _ _ => 2
  | PC.finished => 0
  | PC.panicked => 0

/-- The steps still to take, summed over the goroutines. -/
def remaining (s : Conc) : Nat := (s.gs.map fun g => rank g.pc).sum

/-- `Log` lines on the console. -/
def isLogLine : Line → Bool
  | Line.log _ _ => true
  | _ => false

/-- A schedule of the five goroutines of `main` in which every goroutine reads
`l.logs` before any of them writes it: goroutine 0 runs up to the write of
`Log` (13 steps, it builds the logger), goroutines 1 to 4 likewise (6 steps
each), then each performs its write. -/
def lostUpdateSchedule : List (Nat × Time) :=
  List.replicate 13 (0, 100) ++ List.replicate 6 (1, 101) ++ List.replicate 6 (2, 102) ++
  List.replicate 6 (3, 103) ++ List.replicate 6 (4, 104) ++
  [(0, 105), (1, 106), (2, 107), (3, 108), (4, 109)]

/-- A schedule of the five goroutines of `main` in which each goroutine runs to
its end before the next one starts. -/
def serialSchedule : List (Nat × Time) :=
  List.replicate 14 (0, 100) ++ List.replicate 7 (1, 101) ++ List.replicate 7 (2, 102) ++
  List.replicate 7 (3, 103) ++ List.replicate 7 (4, 104)

/-- The state after goroutines of the given kinds were spawned on the initial
package state and the schedule `sched` was run. -/
def afterSpawn (render : Time → String) (kinds : List Kind)
    (sched : List (Nat × Time)) : Conc :=
  run render sched (spawn kinds)

/-- The program points after `GetInstance` has returned to the goroutine. -/
def hasReturned : PC → Bool
  | PC.getInitTime | PC.logLoad _ | PC.logStore _ _ | PC.finished => true
  | _ => false

/-! ### Invariants of the interleaving semantics -/

/-- Nothing built yet. -/
def PhaseA (p : Pkg) : Prop :=
  p.once.done = false ∧ p.instanceSlot = none ∧ p.heap.length = 0 ∧ p.newLoggerCalls = 0

/-- The logger is allocated, not yet published. -/
def PhaseB (p : Pkg) : Prop :=
  p.once.done = false ∧ p.instanceSlot = none ∧ p.heap.length = 1 ∧ p.newLoggerCalls = 1

/-- The slot is assigned, `done` not yet stored. -/
def PhaseC (p : Pkg) : Prop :=
  p.once.done = false ∧ p.instanceSlot = some 0 ∧ p.heap.length = 1 ∧ p.newLoggerCalls = 1

/-- The gate has fired. -/
def PhaseD (p : Pkg) : Prop :=
  p.once.done = true ∧ p.instanceSlot = some 0 ∧ p.heap.length = 1 ∧ p.newLoggerCalls = 1

/-- What the program point of a goroutine says about the shared state. -/
def pcOK (p : Pkg) (g : Goroutine) : Prop :=
  match g.pc with
  | PC.start | PC.enter | PC.doLoad | PC.lock => True
  | PC.check => PhaseA p ∨ PhaseD p
  | PC.runF | PC.alloc => PhaseA p
  | PC.assign a => PhaseB p ∧ a = 0
  | PC.store => PhaseC p
  | PC.unlock | PC.ret => PhaseD p
  | PC.getInitTime | PC.logLoad _ | PC.logStore _ _ =>
    PhaseD p ∧ g.logger = some 0 ∧ ∃ id, g.kind = Kind.worker id
  | PC.finished => PhaseD p ∧ g.logger = some 0
  | PC.panicked => False

/-- The invariant of the interleaving semantics. -/
structure Inv (s : Conc) : Prop where
  phase : PhaseA s.pkg ∨ PhaseB s.pkg ∨ PhaseC s.pkg ∨ PhaseD s.pkg
  free : s.pkg.once.m = false → PhaseA s.pkg ∨ PhaseD s.pkg
  ok : ∀ (j : Nat) (g : Goroutine), s.gs[j]? = some g → pcOK s.pkg g
  held : ∀ (j : Nat) (g : Goroutine), s.gs[j]? = some g → inCS g.pc = true →
    s.pkg.once.m = true
  owner : s.pkg.once.m = true →
    ∃ (j : Nat) (g : Goroutine), s.gs[j]? = some g ∧ inCS g.pc = true
  unique : ∀ (i j : Nat) (gi gj : Goroutine), s.gs[i]? = some gi → s.gs[j]? = some gj →
    inCS gi.pc = true → inCS gj.pc = true → i = j

/-- Only bare callers run, and no message was logged. -/
def Quiet (s : Conc) : Prop :=
  (∀ (j : Nat) (g : Goroutine), s.gs[j]? = some g → g.kind = Kind.caller) ∧
  ∀ lg ∈ s.pkg.heap, lg.logs = []

end mylazylogger

namespace myconfig

/-- A value of the Go interface type `any`.  The package only stores, returns
and prints such values; the constructors cover nil and the basic kinds. -/
inductive Any where
  | nil
  | bool (b : Bool)
  | int (i : Int)
  | str (s : String)
deriving DecidableEq, Repr

/-- A Go `map[string]any`: `none` is the nil map, `some kvs` a map made by
`make`, with at most one entry per key. -/
abbrev GoMap := Option (List (String × Any))

/-- The expression `m[key]`: the zero value nil when the key is absent, also on a
nil map. -/
def mapGet (m : GoMap) (key : String) : Any :=
  match m with
  | none => Any.nil
  | some kvs => (kvs.lookup key).getD Any.nil

/-- The statement `m[key] = value`: `none` on a nil map (the assignment panics);
otherwise the entry for `key` is replaced or added. -/
def mapSet (m : GoMap) (key : String) (value : Any) : Option GoMap :=
  match m with
  | none => none
  | some kvs => some (some ((key, value) :: kvs.filter fun e => e.1 ≠ key))

/-- The struct `AppConfig` of config.go. -/
structure AppConfig where
  AppName : String
  Version : String
  Settings : GoMap
deriving DecidableEq, Repr

/-- One line written to the console by the package. -/
inductive Line where
  /-- The line "myconfig: init() called - Initializing global AppConfig." -/
  | initCalled
  /-- The line "myconfig: GetInstance() called." -/
  | getInstanceCalled
  /-- The line "myconfig: Setting 'key' updated to 'value' ." -/
  | settingUpdated (key : String) (value : Any)
deriving DecidableEq, Repr

/-- The package state: the heap of `AppConfig` objects, the package variable
`globalConfig`, the console. -/
structure Pkg where
  heap : List AppConfig
  globalConfig : Ptr
  stdout : List Line
deriving DecidableEq, Repr

/-- The package state before `init` has run: `globalConfig` is nil. -/
def zeroPkg : Pkg := { heap := [], globalConfig := none, stdout := [] }

/-- The function `fmt.Println` / `fmt.Printf`: one more line on the console. -/
def println (ln : Line) (s : Pkg) : Pkg :=
  { s with stdout := s.stdout ++ [ln] }

/-- The statement `c.Settings[key] = value` through the pointer `c`: `none` when
`c` is nil or dangling, or when the map is nil. -/
def assignSetting (c : Ptr) (key : String) (value : Any) (s : Pkg) : Option Pkg :=
  match c with
  | none => none
  | some a =>
    match s.heap[a]? with
    | none => none
    | some cfg =>
      match mapSet cfg.Settings key value with
      | none => none
      | some m => some { s with heap := s.heap.set a { cfg with Settings := m } }

/-- The function `init` of config.go, run when the package is loaded: prints,
allocates the `AppConfig` with a map made by `make`, stores its address in
`globalConfig`, then sets the entry "db_host". -/
def init (s : Pkg) : Option Pkg :=
  let s1 := println Line.initCalled s
  let s2 : Pkg :=
    { s1 with
      heap := s1.heap ++ [{ AppName := "GoApp", Version := "0.1.0", Settings := some [] }],
      globalConfig := some s1.heap.length }
  assignSetting s2.globalConfig "db_host" (Any.str "localhost") s2

/-- The function `GetInstance` of config.go: prints, returns `globalConfig`. -/
def GetInstance (s : Pkg) : Ptr × Pkg :=
  (s.globalConfig, println Line.getInstanceCalled s)

/-- The method `(*AppConfig).GetSetting`: returns `c.Settings[key]`, together
with the package state after the call, which the method does not write to;
`none` when the receiver is nil or dangling. -/
def AppConfig.GetSetting (c : Ptr) (key : String) (s : Pkg) : Option (Any × Pkg) :=
  match c with
  | none => none
  | some a => (s.heap[a]?).map fun cfg => (mapGet cfg.Settings key, s)

/-- The method `(*AppConfig).SetSetting`: `c.Settings[key] = value`, then prints;
`none` when it panics. -/
def AppConfig.SetSetting (c : Ptr) (key : String) (value : Any) (s : Pkg) : Option Pkg :=
  (assignSetting c key value s).map (println (Line.settingUpdated key value))

/-! ### A sequential client of the config -/

/-- One call of a client.  `setSetting j ..` and `getSetting j ..` are made on
the reference returned by the client's `j`-th call of `GetInstance` (from 0). -/
inductive Call where
  | getInstance
  | setSetting (j : Nat) (key : String) (value : Any)
  | getSetting (j : Nat) (key : String)
deriving DecidableEq, Repr

/-- A client together with the package: the references it got from
`GetInstance`, in call order, and the values `GetSetting` returned to it. -/
structure Sys where
  pkg : Pkg
  returned : List Ptr
  values : List Any
deriving DecidableEq, Repr

/-- The client before its first call, the package having been loaded. -/
def startSys : Option Sys :=
  (init zeroPkg).map fun p => { pkg := p, returned := [], values := [] }

/-- The reference the client holds in its `j`-th variable; nil when unassigned. -/
def Sys.ref (s : Sys) (j : Nat) : Ptr := (s.returned[j]?).getD none

/-- One call; `none` when it panics. -/
def applyCall (c : Call) (s : Sys) : Option Sys :=
  match c with
  | Call.getInstance =>
    let r := GetInstance s.pkg
    some { s with pkg := r.2, returned := s.returned ++ [r.1] }
  | Call.setSetting j key value =>
    (AppConfig.SetSetting (s.ref j) key value s.pkg).map fun p => { s with pkg := p }
  | Call.getSetting j key =>
    (AppConfig.GetSetting (s.ref j) key s.pkg).map fun r =>
      { s with pkg := r.2, values := s.values ++ [r.1] }

/-- A sequence of calls, in order; `none` as soon as one panics. -/
def runCalls : List Call → Sys → Option Sys
  | [], s => some s
  | c :: cs, s => (applyCall c s).bind (runCalls cs)

/-- Every `setSetting` and `getSetting` of the sequence is made on a reference
the client already obtained; `n` is the number of references obtained before. -/
def wellFormed : Nat → List Call → Bool
  | _, [] => true
  | n, Call.getInstance :: cs => wellFormed (n + 1) cs
  | n, Call.setSetting j _ _ :: cs => decide (j < n) && wellFormed n cs
  | n, Call.getSetting j _ :: cs => decide (j < n) && wellFormed n cs

/-- No call of the sequence is a `SetSetting`. -/
def noSet : List Call → Bool
  | [] => true
  | Call.setSetting _ _ _ :: _ => false
  | _ :: cs => noSet cs

/-- The invariant of the loaded package: `globalConfig` is the address of the
only `AppConfig` on the heap, whose name and version are those set by `init`
and whose map is not nil, and every reference handed out is that address. -/
def Loaded (kvs : List (String × Any)) (s : Sys) : Prop :=
  s.pkg.globalConfig = some 0 ∧
  s.pkg.heap = [{ AppName := "GoApp", Version := "0.1.0", Settings := some kvs }] ∧
  ∀ r ∈ s.returned, r = some 0

end myconfig

/-! ## Properties of the sequential logger -/

namespace mylazylogger

theorem fresh_initSys : Fresh initSys := by
  simp [Fresh, initSys, initPkg]

theorem getInstance_fresh (now : Time) (s : Sys) (h : Fresh s) :
    ∃ s1, applyCall (Call.getInstance now) s = some s1 ∧ Built now [] s1 ∧
      s1.returned = [some 0] := by
  obtain ⟨hd, hs, hh, hn, hr, hc⟩ := h
  refine ⟨_, rfl, ?_, ?_⟩
  · simp [Built, GetInstance, onceDo, initClosure, newLogger, println, hd, hh, hn, hr,
      List.count_append, hc]
  · simp [GetInstance, onceDo, initClosure, newLogger, println, hd, hh, hr]

theorem getInstance_built (now t0 : Time) (logs : List String) (s : Sys)
    (h : Built t0 logs s) :
    ∃ s1, applyCall (Call.getInstance now) s = some s1 ∧ Built t0 logs s1 ∧
      s1.returned = s.returned ++ [some 0] ∧
      s1.pkg.instanceSlot = s.pkg.instanceSlot ∧ s1.pkg.heap = s.pkg.heap ∧
      s1.times = s.times := by
  obtain ⟨hd, hs, hh, hn, hr, hc⟩ := h
  refine ⟨_, rfl, ?_, ?_, ?_, ?_, ?_⟩
  · refine ⟨?_, ?_, ?_, ?_, ?_, ?_⟩
    · simp [GetInstance, onceDo, println, hd]
    · simp [GetInstance, onceDo, println, hd, hs]
    · simp [GetInstance, onceDo, println, hd, hh]
    · simp [GetInstance, onceDo, println, hd, hn]
    · intro r hr'
      simp only [GetInstance, onceDo, println, hd, if_true, List.mem_append,
        List.mem_singleton] at hr'
      rcases hr' with hr' | hr'
      · exact hr r hr'
      · rw [hr', hs]
    · simp [GetInstance, onceDo, println, hd, List.count_append, hc]
  · simp [GetInstance, onceDo, println, hd, hs]
  · simp [GetInstance, onceDo, println, hd]
  · simp [GetInstance, onceDo, println, hd]
  · rfl

theorem ref_built (t0 : Time) (logs : List String) (s : Sys) (h : Built t0 logs s)
    (k : Nat) (hk : k < s.returned.length) : s.ref k = some 0 := by
  obtain ⟨-, -, -, -, hr, -⟩ := h
  have : s.returned[k]? = some (s.returned[k]) := List.getElem?_eq_getElem hk
  simp only [Sys.ref, this, Option.getD_some]
  exact hr _ (List.getElem_mem hk)

theorem log_built (t0 : Time) (logs : List String) (s : Sys) (h : Built t0 logs s)
    (k : Nat) (hk : k < s.returned.length) (message : String) :
    ∃ s1, applyCall (Call.log k message) s = some s1 ∧
      Built t0 (logs ++ [message]) s1 ∧ s1.returned = s.returned ∧
      s1.pkg.instanceSlot = s.pkg.instanceSlot ∧ s1.times = s.times := by
  have hk0 := ref_built t0 logs s h k hk
  obtain ⟨hd, hs, hh, hn, hr, hc⟩ := h
  refine ⟨{ s with pkg := (println (Line.log t0 message)
      { s.pkg with heap := [{ initTime := t0, logs := logs ++ [message] }] }) },
    ?_, ?_, ?_, ?_, ?_⟩
  · simp [applyCall, hk0, Logger.Log, hh, Logger.appendLog]
  · simp [Built, println, hd, hs, hn, List.count_append, hc]
    exact hr
  · rfl
  · simp [println]
  · rfl

theorem getInitTime_built (t0 : Time) (logs : List String) (s : Sys)
    (h : Built t0 logs s) (k : Nat) (hk : k < s.returned.length) :
    applyCall (Call.getInitTime k) s = some { s with times := s.times ++ [t0] } := by
  have hk0 := ref_built t0 logs s h k hk
  obtain ⟨hd, hs, hh, hn, hr, hc⟩ := h
  simp [applyCall, hk0, Logger.GetInitTime, hh]

theorem runCalls_append (cs1 cs2 : List Call) (s : Sys) :
    runCalls (cs1 ++ cs2) s = (runCalls cs1 s).bind (runCalls cs2) := by
  induction cs1 generalizing s with
  | nil => simp [runCalls]
  | cons c cs ih =>
    simp only [List.cons_append, runCalls]
    cases applyCall c s with
    | none => simp
    | some s1 => simpa using ih s1

theorem wellFormed_append (cs1 cs2 : List Call) (n : Nat) :
    wellFormed n (cs1 ++ cs2) =
      (wellFormed n cs1 && wellFormed (n + countGet cs1) cs2) := by
  induction cs1 generalizing n with
  | nil => simp [wellFormed, countGet]
  | cons c cs ih =>
    cases c with
    | getInstance now =>
      have e : n + (countGet cs + 1) = n + 1 + countGet cs := by omega
      show wellFormed (n + 1) (cs ++ cs2) = _
      rw [ih (n + 1), countGet, e, wellFormed]
    | log k message => simp [wellFormed, countGet, ih, Bool.and_assoc]
    | getInitTime k => simp [wellFormed, countGet, ih, Bool.and_assoc]

/-- From a built state every well-formed sequence of calls runs to the end, the
logger stays the one built at `t0`, every `GetInstance` returns its address and
every `GetInitTime` returns `t0`. -/
theorem run_built (cs : List Call) :
    ∀ (s : Sys) (t0 : Time) (logs : List String), Built t0 logs s →
      wellFormed s.returned.length cs = true →
      ∃ s1, runCalls cs s = some s1 ∧ Built t0 (logs ++ loggedMessages cs) s1 ∧
        s1.returned = s.returned ++ List.replicate (countGet cs) (some 0) ∧
        s1.pkg.instanceSlot = s.pkg.instanceSlot ∧
        s1.times = s.times ++ List.replicate (countInitTime cs) t0 := by
  induction cs with
  | nil =>
    intro s t0 logs hb _
    exact ⟨s, rfl, by simpa [loggedMessages] using hb, by simp [countGet], rfl,
      by simp [countInitTime]⟩
  | cons c cs ih =>
    intro s t0 logs hb hwf
    cases c with
    | getInstance now =>
      obtain ⟨s1, h1, hb1, hr1, hs1, -, ht1⟩ := getInstance_built now t0 logs s hb
      have hwf1 : wellFormed s1.returned.length cs = true := by
        simpa [wellFormed, hr1] using hwf
      obtain ⟨s2, h2, hb2, hr2, hs2, ht2⟩ := ih s1 t0 logs hb1 hwf1
      refine ⟨s2, ?_, ?_, ?_, ?_, ?_⟩
      · simp [runCalls, h1, h2]
      · simpa [loggedMessages] using hb2
      · rw [hr2, hr1, countGet, List.replicate_succ, List.append_assoc]
        rfl
      · rw [hs2, hs1]
      · rw [ht2, ht1]
        rfl
    | log k message =>
      simp only [wellFormed, Bool.and_eq_true, decide_eq_true_eq] at hwf
      obtain ⟨s1, h1, hb1, hr1, hs1, ht1⟩ := log_built t0 logs s hb k hwf.1 message
      have hwf1 : wellFormed s1.returned.length cs = true := by
        rw [hr1]; exact hwf.2
      obtain ⟨s2, h2, hb2, hr2, hs2, ht2⟩ := ih s1 t0 (logs ++ [message]) hb1 hwf1
      refine ⟨s2, ?_, ?_, ?_, ?_, ?_⟩
      · simp [runCalls, h1, h2]
      · simpa [loggedMessages] using hb2
      · rw [hr2, hr1]
        rfl
      · rw [hs2, hs1]
      · rw [ht2, ht1]
        rfl
    | getInitTime k =>
      simp only [wellFormed, Bool.and_eq_true, decide_eq_true_eq] at hwf
      have h1 := getInitTime_built t0 logs s hb k hwf.1
      have hb1 : Built t0 logs { s with times := s.times ++ [t0] } := hb
      obtain ⟨s2, h2, hb2, hr2, hs2, ht2⟩ := ih _ t0 logs hb1 hwf.2
      refine ⟨s2, ?_, ?_, ?_, ?_, ?_⟩
      · simp [runCalls, h1, h2]
      · simpa [loggedMessages] using hb2
      · rw [hr2]
        rfl
      · rw [hs2]
      · rw [ht2, countInitTime, List.replicate_succ, List.append_assoc]
        rfl

/-- A well-formed sequence from the initial state is empty or starts with a
`GetInstance`: the client has no reference to call `Log` or `GetInitTime` on. -/
theorem wellFormed_zero (cs : List Call) (h : wellFormed 0 cs = true) :
    cs = [] ∨ ∃ now cs1, cs = Call.getInstance now :: cs1 ∧ wellFormed 1 cs1 = true := by
  cases cs with
  | nil => exact Or.inl rfl
  | cons c cs =>
    cases c with
    | getInstance now => exact Or.inr ⟨now, cs, rfl, by simpa [wellFormed] using h⟩
    | log k message => simp [wellFormed] at h
    | getInitTime k => simp [wellFormed] at h

/-- Every well-formed run from the initial state: it runs to the end; either no
`GetInstance` was called and the state is still the initial one, or the logger
was built at the clock value of the first `GetInstance`. -/
theorem run_init (cs : List Call) (h : wellFormed 0 cs = true) :
    ∃ s, runCalls cs initSys = some s ∧
      s.returned = List.replicate (countGet cs) (some 0) ∧
      ((cs = [] ∧ s = initSys) ∨
       (∃ t0, firstNow cs = some t0 ∧ 0 < countGet cs ∧ Built t0 (loggedMessages cs) s ∧
          s.times = List.replicate (countInitTime cs) t0)) := by
  rcases wellFormed_zero cs h with rfl | ⟨now, cs1, rfl, hwf⟩
  · exact ⟨initSys, rfl, rfl, Or.inl ⟨rfl, rfl⟩⟩
  · obtain ⟨s1, h1, hb1, hr1⟩ := getInstance_fresh now initSys fresh_initSys
    have ht1 : s1.times = [] := by
      simp only [applyCall, Option.some.injEq] at h1
      rw [← h1]; rfl
    have hwf1 : wellFormed s1.returned.length cs1 = true := by
      rw [hr1]; exact hwf
    obtain ⟨s2, h2, hb2, hr2, -, ht2⟩ := run_built cs1 s1 now [] hb1 hwf1
    refine ⟨s2, ?_, ?_, Or.inr ⟨now, rfl, ?_, ?_, ?_⟩⟩
    · simp [runCalls, h1, h2]
    · rw [hr2, hr1, countGet, List.replicate_succ]
      rfl
    · simp [countGet]
    · simpa [loggedMessages] using hb2
    · rw [ht2, ht1]
      rfl

theorem firstNow_append_of_pos (cs1 cs2 : List Call) (h : 0 < countGet cs1) :
    firstNow (cs1 ++ cs2) = firstNow cs1 := by
  induction cs1 with
  | nil => simp [countGet] at h
  | cons c cs ih =>
    cases c with
    | getInstance now => rfl
    | log k message => exact ih h
    | getInitTime k => exact ih h

theorem getInitTime_of_built (t0 : Time) (logs : List String) (s : Sys)
    (h : Built t0 logs s) (r : Ptr) (hr : r ∈ s.returned) :
    Logger.GetInitTime r s.pkg = some t0 := by
  obtain ⟨-, -, hh, -, hret, -⟩ := h
  rw [hret r hr]
  simp [Logger.GetInitTime, hh]

theorem log_heap (s : Pkg) (a : Nat) (lg : Logger) (message : String)
    (h : s.heap[a]? = some lg) :
    ∃ s1, Logger.Log (some a) message s = some s1 ∧
      s1.heap[a]? = some { lg with logs := lg.logs ++ [message] } ∧
      s1.heap.length = s.heap.length ∧
      (∀ b, b ≠ a → s1.heap[b]? = s.heap[b]?) := by
  have ha : a < s.heap.length := by
    rcases Nat.lt_or_ge a s.heap.length with hlt | hge
    · exact hlt
    · rw [List.getElem?_eq_none hge] at h
      cases h
  refine ⟨println (lg.appendLog message).2
    { s with heap := s.heap.set a (lg.appendLog message).1 }, by simp [Logger.Log, h], ?_, ?_, ?_⟩
  · simp [println, Logger.appendLog, List.getElem?_set, ha]
  · simp [println]
  · intro b hb
    simp [println, List.getElem?_set, Ne.symm hb]

theorem logAll_heap (ms : List String) :
    ∀ (s : Pkg) (a : Nat) (lg : Logger), s.heap[a]? = some lg →
      ∃ s1, logAll ms (some a) s = some s1 ∧
        s1.heap[a]? = some { lg with logs := lg.logs ++ ms } := by
  induction ms with
  | nil =>
    intro s a lg h
    exact ⟨s, rfl, by simpa using h⟩
  | cons message ms ih =>
    intro s a lg h
    obtain ⟨s1, h1, hh1, -, -⟩ := log_heap s a lg message h
    obtain ⟨s2, h2, hh2⟩ := ih s1 a _ hh1
    exact ⟨s2, by simp [logAll, h1, h2], by simpa using hh2⟩

theorem countGet_append (cs1 cs2 : List Call) :
    countGet (cs1 ++ cs2) = countGet cs1 + countGet cs2 := by
  induction cs1 with
  | nil => simp [countGet]
  | cons c cs ih =>
    cases c with
    | getInstance now =>
      show countGet (cs ++ cs2) + 1 = countGet cs + 1 + countGet cs2
      omega
    | log k message => exact ih
    | getInitTime k => exact ih

/-- C1: from the initial state, run any well-formed sequence of calls, split at
any point into `cs1` and `cs2`.  Both parts run to the end; the client has
received one reference per `GetInstance` call; every reference received equals
the one returned by the first call; the references received in the first part
are still the same after the second; and when the slot `instance` is set after
the first part, it holds the same address after the second. -/
theorem getInstance_identical (cs1 cs2 : List Call)
    (h : wellFormed 0 (cs1 ++ cs2) = true) :
    ∃ s1 s2, runCalls cs1 initSys = some s1 ∧ runCalls cs2 s1 = some s2 ∧
      s2.returned.length = countGet (cs1 ++ cs2) ∧
      (∀ r ∈ s2.returned, s2.returned.head? = some r) ∧
      (∀ r ∈ s2.returned, r = s2.pkg.instanceSlot) ∧
      (∀ k, k < s1.returned.length → s2.returned[k]? = s1.returned[k]?) ∧
      (s1.pkg.instanceSlot ≠ none → s2.pkg.instanceSlot = s1.pkg.instanceSlot) := by
  have hsplit := h
  rw [wellFormed_append, Bool.and_eq_true] at hsplit
  obtain ⟨hwf1, hwf2⟩ := hsplit
  obtain ⟨s1, hrun1, hret1, hcase1⟩ := run_init cs1 hwf1
  obtain ⟨s2, hrun2, hret2, hcase2⟩ := run_init (cs1 ++ cs2) h
  have hrun12 : runCalls cs2 s1 = some s2 := by
    have := runCalls_append cs1 cs2 initSys
    rw [hrun1, hrun2] at this
    simpa using this.symm
  have hall : ∀ r ∈ s2.returned, r = some 0 := by
    intro r hr
    rw [hret2] at hr
    exact (List.mem_replicate.mp hr).2
  refine ⟨s1, s2, hrun1, hrun12, ?_, ?_, ?_, ?_, ?_⟩
  · rw [hret2, List.length_replicate]
  · intro r hr
    have h0 := hall r hr
    cases hl : s2.returned with
    | nil => rw [hl] at hr; cases hr
    | cons x xs =>
      have hx : x = some 0 := hall x (by rw [hl]; exact List.mem_cons_self x xs)
      rw [h0, hx]
      rfl
  · intro r hr
    rcases hcase2 with ⟨hnil, hs2⟩ | ⟨t0, -, -, hb, -⟩
    · rw [hs2] at hr
      cases hr
    · rw [hall r hr, hb.2.1]
  · intro k hk
    rw [hret1, List.length_replicate] at hk
    have hk2 : k < countGet (cs1 ++ cs2) := by
      have := countGet_append cs1 cs2
      omega
    rw [hret1, hret2, List.getElem?_replicate, List.getElem?_replicate]
    simp [hk, hk2]
  · intro hne
    rcases hcase1 with ⟨-, hs1⟩ | ⟨t0, -, -, hb1, -⟩
    · rw [hs1] at hne
      exact absurd rfl hne
    · have hwf2b : wellFormed s1.returned.length cs2 = true := by
        rw [hret1, List.length_replicate]
        simpa using hwf2
      obtain ⟨s3, hrun3, -, -, hslot, -⟩ := run_built cs2 s1 t0 _ hb1 hwf2b
      rw [hrun12] at hrun3
      cases hrun3
      exact hslot

/-- Instance of `getInstance_identical`: two `GetInstance` calls with a `Log` and
a `GetInitTime` between them, then a third `GetInstance`. -/
theorem getInstance_identical_witness :
    wellFormed 0 ([Call.getInstance 7, Call.log 0 "a", Call.getInitTime 0,
        Call.getInstance 9] ++ [Call.log 1 "b", Call.getInstance 12]) = true ∧
    ∃ s1 s2, runCalls [Call.getInstance 7, Call.log 0 "a", Call.getInitTime 0,
        Call.getInstance 9] initSys = some s1 ∧
      runCalls [Call.log 1 "b", Call.getInstance 12] s1 = some s2 ∧
      s2.returned.length = countGet ([Call.getInstance 7, Call.log 0 "a",
        Call.getInitTime 0, Call.getInstance 9] ++ [Call.log 1 "b", Call.getInstance 12]) ∧
      (∀ r ∈ s2.returned, s2.returned.head? = some r) ∧
      (∀ r ∈ s2.returned, r = s2.pkg.instanceSlot) ∧
      (∀ k, k < s1.returned.length → s2.returned[k]? = s1.returned[k]?) ∧
      (s1.pkg.instanceSlot ≠ none → s2.pkg.instanceSlot = s1.pkg.instanceSlot) :=
  ⟨by decide, getInstance_identical _ _ (by decide)⟩

/-- C2: after any well-formed sequence of calls from the initial state that
contains at least one `GetInstance`, `newLogger` has been executed exactly once:
the counter is 1, its line was printed once, and one `Logger` is on the heap.
Before the first call the counter is 0. -/
theorem newLogger_runs_once (cs : List Call) (h : wellFormed 0 cs = true)
    (hN : 1 ≤ countGet cs) :
    initPkg.newLoggerCalls = 0 ∧
    ∃ s, runCalls cs initSys = some s ∧ s.pkg.newLoggerCalls = 1 ∧
      s.pkg.stdout.count Line.newLoggerCalled = 1 ∧ s.pkg.heap.length = 1 := by
  refine ⟨rfl, ?_⟩
  obtain ⟨s, hrun, -, hcase⟩ := run_init cs h
  rcases hcase with ⟨hnil, -⟩ | ⟨t0, -, -, hb, -⟩
  · rw [hnil] at hN
    simp [countGet] at hN
  · exact ⟨s, hrun, hb.2.2.2.1, hb.2.2.2.2.2, by rw [hb.2.2.1]; rfl⟩

/-- Instance of `newLogger_runs_once`: three `GetInstance` calls. -/
theorem newLogger_runs_once_witness :
    wellFormed 0 [Call.getInstance 3, Call.getInstance 4, Call.getInstance 5] = true ∧
    1 ≤ countGet [Call.getInstance 3, Call.getInstance 4, Call.getInstance 5] ∧
    initPkg.newLoggerCalls = 0 ∧
    ∃ s, runCalls [Call.getInstance 3, Call.getInstance 4, Call.getInstance 5] initSys
        = some s ∧ s.pkg.newLoggerCalls = 1 ∧
      s.pkg.stdout.count Line.newLoggerCalled = 1 ∧ s.pkg.heap.length = 1 :=
  ⟨by decide, by decide, newLogger_runs_once _ (by decide) (by decide)⟩

/-- C4: for a `Logger` at address `a` with message sequence `lg.logs`,
`Log(message)` returns and leaves the sequence `lg.logs ++ [message]`, the
creation time and every other object untouched; the calls `Log(m1) ... Log(mk)`
in order leave `lg.logs ++ [m1, ..., mk]`; and on the logger just built by the
first `GetInstance` they leave exactly `[m1, ..., mk]`, of length `k`. -/
theorem log_appends (s : Pkg) (a : Nat) (lg : Logger) (message : String)
    (ms : List String) (now : Time) (h : s.heap[a]? = some lg) :
    (∃ s1, Logger.Log (some a) message s = some s1 ∧
      s1.heap[a]? = some { initTime := lg.initTime, logs := lg.logs ++ [message] } ∧
      (∀ b, b ≠ a → s1.heap[b]? = s.heap[b]?)) ∧
    (∃ s2, logAll ms (some a) s = some s2 ∧
      s2.heap[a]? = some { initTime := lg.initTime, logs := lg.logs ++ ms }) ∧
    (∃ s3 lg3, logAll ms (GetInstance now initPkg).1 (GetInstance now initPkg).2 = some s3 ∧
      s3.heap = [lg3] ∧ s3.instanceSlot = some 0 ∧ lg3.logs = ms ∧
      lg3.logs.length = ms.length) := by
  refine ⟨?_, ?_, ?_⟩
  · obtain ⟨s1, h1, hh1, -, hoth⟩ := log_heap s a lg message h
    exact ⟨s1, h1, hh1, hoth⟩
  · exact logAll_heap ms s a lg h
  · have hfresh : (GetInstance now initPkg).2.heap[0]? = some { initTime := now, logs := [] } :=
      rfl
    have hptr : (GetInstance now initPkg).1 = some 0 := rfl
    have hlen : ∀ (ms : List String) (s : Pkg) (s1 : Pkg),
        logAll ms (some 0) s = some s1 →
          s1.heap.length = s.heap.length ∧ s1.instanceSlot = s.instanceSlot := by
      intro ms
      induction ms with
      | nil =>
        intro s s1 hs
        simp only [logAll, Option.some.injEq] at hs
        rw [hs]
        exact ⟨rfl, rfl⟩
      | cons m ms ih =>
        intro s s1 hs
        simp only [logAll] at hs
        cases hl : Logger.Log (some 0) m s with
        | none => rw [hl] at hs; cases hs
        | some s0 =>
          rw [hl] at hs
          obtain ⟨e1, e2⟩ := ih s0 s1 hs
          simp only [Logger.Log] at hl
          cases hg : s.heap[0]? with
          | none => rw [hg] at hl; cases hl
          | some lg0 =>
            rw [hg] at hl
            simp only [Option.some.injEq] at hl
            rw [e1, e2, ← hl]
            simp [println]
    obtain ⟨s3, h3, hh3⟩ := logAll_heap ms _ 0 _ hfresh
    obtain ⟨e1, e2⟩ := hlen ms _ s3 h3
    have hl1 : s3.heap.length = 1 := by rw [e1]; rfl
    refine ⟨s3, { initTime := now, logs := [] ++ ms }, by rw [hptr]; exact h3, ?_,
      by rw [e2]; rfl, by simp, by simp⟩
    cases hh : s3.heap with
    | nil => rw [hh] at hl1; cases hl1
    | cons x xs =>
      rw [hh] at hl1 hh3
      have hxs : xs = [] := by
        cases xs with
        | nil => rfl
        | cons y ys => simp at hl1
      simp only [List.getElem?_cons_zero, Option.some.injEq] at hh3
      rw [hxs, hh3]

/-- Instance of `log_appends`: a logger holding one message, in a heap of two. -/
theorem log_appends_witness :
    ((∃ s1, Logger.Log (some 1) "c" { initPkg with heap := [⟨1, []⟩, ⟨2, ["a"]⟩] } = some s1 ∧
      s1.heap[1]? = some { initTime := 2, logs := ["a"] ++ ["c"] } ∧
      (∀ b, b ≠ 1 → s1.heap[b]? = [(⟨1, []⟩ : Logger), ⟨2, ["a"]⟩][b]?)) ∧
    (∃ s2, logAll ["x", "y"] (some 1) { initPkg with heap := [⟨1, []⟩, ⟨2, ["a"]⟩] }
        = some s2 ∧
      s2.heap[1]? = some { initTime := 2, logs := ["a"] ++ ["x", "y"] }) ∧
    (∃ s3 lg3, logAll ["x", "y"] (GetInstance 5 initPkg).1 (GetInstance 5 initPkg).2
        = some s3 ∧
      s3.heap = [lg3] ∧ s3.instanceSlot = some 0 ∧ lg3.logs = ["x", "y"] ∧
      lg3.logs.length = ["x", "y"].length)) :=
  log_appends { initPkg with heap := [⟨1, []⟩, ⟨2, ["a"]⟩] } 1 ⟨2, ["a"]⟩ "c" ["x", "y"] 5 rfl

/-- C5: run any well-formed sequence of calls from the initial state, split at
any point.  For every reference `r1` received in the first part and every
reference `r2` received in the whole run, `GetInitTime` returns on `r1` at the
split point, on `r1` at the end and on `r2` at the end the same value: the
clock value of the construction, which is the one handed to the first
`GetInstance`.  Every value `GetInitTime` returned during the run is that value. -/
theorem initTime_identical (cs1 cs2 : List Call)
    (h : wellFormed 0 (cs1 ++ cs2) = true) :
    ∃ s1 s2, runCalls cs1 initSys = some s1 ∧ runCalls cs2 s1 = some s2 ∧
      (∀ r1 ∈ s1.returned, ∀ r2 ∈ s2.returned, ∃ t0, firstNow cs1 = some t0 ∧
        Logger.GetInitTime r1 s1.pkg = some t0 ∧ Logger.GetInitTime r1 s2.pkg = some t0 ∧
        Logger.GetInitTime r2 s2.pkg = some t0) ∧
      (∀ r2 ∈ s2.returned, Logger.GetInitTime r2 s2.pkg = firstNow (cs1 ++ cs2)) ∧
      (∀ t ∈ s2.times, firstNow (cs1 ++ cs2) = some t) := by
  have hsplit := h
  rw [wellFormed_append, Bool.and_eq_true] at hsplit
  obtain ⟨hwf1, hwf2⟩ := hsplit
  obtain ⟨s1, hrun1, hret1, hcase1⟩ := run_init cs1 hwf1
  obtain ⟨s2, hrun2, hret2, hcase2⟩ := run_init (cs1 ++ cs2) h
  have hrun12 : runCalls cs2 s1 = some s2 := by
    have := runCalls_append cs1 cs2 initSys
    rw [hrun1, hrun2] at this
    simpa using this.symm
  refine ⟨s1, s2, hrun1, hrun12, ?_, ?_, ?_⟩
  · intro r1 hr1 r2 hr2
    rcases hcase1 with ⟨-, hs1⟩ | ⟨t0, hf1, hpos, hb1, -⟩
    · rw [hs1] at hr1
      cases hr1
    · rcases hcase2 with ⟨-, hs2⟩ | ⟨t2, hf2, -, hb2, -⟩
      · rw [hs2] at hr2
        cases hr2
      · rw [firstNow_append_of_pos cs1 cs2 hpos, hf1] at hf2
        cases hf2
        have hr1some : r1 = some 0 := hb1.2.2.2.2.1 r1 hr1
        refine ⟨t0, hf1, getInitTime_of_built t0 _ s1 hb1 r1 hr1, ?_,
          getInitTime_of_built t0 _ s2 hb2 r2 hr2⟩
        rw [hr1some]
        simp [Logger.GetInitTime, hb2.2.2.1]
  · intro r2 hr2
    rcases hcase2 with ⟨-, hs2⟩ | ⟨t2, hf2, -, hb2, -⟩
    · rw [hs2] at hr2
      cases hr2
    · rw [hf2]
      exact getInitTime_of_built t2 _ s2 hb2 r2 hr2
  · intro t ht
    rcases hcase2 with ⟨-, hs2⟩ | ⟨t2, hf2, -, -, htimes⟩
    · rw [hs2] at ht
      cases ht
    · rw [htimes] at ht
      rw [hf2, (List.mem_replicate.mp ht).2]

/-- Instance of `initTime_identical`: the checks at the end of `main`, after a
`Log`. -/
theorem initTime_identical_witness :
    wellFormed 0 ([Call.getInstance 7, Call.log 0 "a", Call.getInitTime 0] ++
        [Call.getInstance 9, Call.getInitTime 0, Call.getInitTime 1]) = true ∧
    ∃ s1 s2, runCalls [Call.getInstance 7, Call.log 0 "a", Call.getInitTime 0] initSys
        = some s1 ∧
      runCalls [Call.getInstance 9, Call.getInitTime 0, Call.getInitTime 1] s1 = some s2 ∧
      (∀ r1 ∈ s1.returned, ∀ r2 ∈ s2.returned, ∃ t0,
        firstNow [Call.getInstance 7, Call.log 0 "a", Call.getInitTime 0] = some t0 ∧
        Logger.GetInitTime r1 s1.pkg = some t0 ∧ Logger.GetInitTime r1 s2.pkg = some t0 ∧
        Logger.GetInitTime r2 s2.pkg = some t0) ∧
      (∀ r2 ∈ s2.returned, Logger.GetInitTime r2 s2.pkg =
        firstNow ([Call.getInstance 7, Call.log 0 "a", Call.getInitTime 0] ++
          [Call.getInstance 9, Call.getInitTime 0, Call.getInitTime 1])) ∧
      (∀ t ∈ s2.times,
        firstNow ([Call.getInstance 7, Call.log 0 "a", Call.getInitTime 0] ++
          [Call.getInstance 9, Call.getInitTime 0, Call.getInitTime 1]) = some t) :=
  ⟨by decide, initTime_identical _ _ (by decide)⟩

/-- C9: in the initial state the slot `instance` is nil and the gate has not
fired; the first `GetInstance` fires the gate and sets the slot to the address
of a `Logger` that was not on the heap before and whose message sequence is
empty; and after every well-formed sequence of `GetInstance`, `Log` and
`GetInitTime` calls the gate has fired exactly when the slot is not nil, every
reference already returned is not nil, and the next `GetInstance` does not
return nil. -/
theorem lazy_on_first_access (cs : List Call) (now : Time)
    (h : wellFormed 0 cs = true) :
    (initPkg.instanceSlot = none ∧ initPkg.once.done = false ∧ initPkg.heap = []) ∧
    (∃ a, (GetInstance now initPkg).1 = some a ∧
      (GetInstance now initPkg).2.once.done = true ∧
      (GetInstance now initPkg).2.instanceSlot = some a ∧
      initPkg.heap[a]? = none ∧
      (GetInstance now initPkg).2.heap[a]? = some { initTime := now, logs := [] }) ∧
    (∃ s, runCalls cs initSys = some s ∧
      (s.pkg.once.done = true ↔ s.pkg.instanceSlot ≠ none) ∧
      (∀ r ∈ s.returned, r ≠ none) ∧
      (GetInstance now s.pkg).1 ≠ none) := by
  refine ⟨⟨rfl, rfl, rfl⟩, ⟨0, rfl, rfl, rfl, rfl, rfl⟩, ?_⟩
  obtain ⟨s, hrun, hret, hcase⟩ := run_init cs h
  refine ⟨s, hrun, ?_, ?_, ?_⟩
  · rcases hcase with ⟨-, hs⟩ | ⟨t0, -, -, hb, -⟩
    · rw [hs]
      simp [initSys, initPkg]
    · simp [hb.1, hb.2.1]
  · intro r hr
    rw [hret] at hr
    rw [(List.mem_replicate.mp hr).2]
    simp
  · rcases hcase with ⟨-, hs⟩ | ⟨t0, -, -, hb, -⟩
    · rw [hs]
      simp [initSys, GetInstance, onceDo, initClosure, newLogger, println, initPkg]
    · obtain ⟨s1, h1, hb1, hr1, -⟩ := getInstance_built now t0 _ s hb
      simp [GetInstance, onceDo, println, hb.1, hb.2.1]

/-- Instance of `lazy_on_first_access`: one `GetInstance`, one `Log`. -/
theorem lazy_on_first_access_witness :
    wellFormed 0 [Call.getInstance 4, Call.log 0 "a"] = true ∧
    ((initPkg.instanceSlot = none ∧ initPkg.once.done = false ∧ initPkg.heap = []) ∧
    (∃ a, (GetInstance 6 initPkg).1 = some a ∧
      (GetInstance 6 initPkg).2.once.done = true ∧
      (GetInstance 6 initPkg).2.instanceSlot = some a ∧
      initPkg.heap[a]? = none ∧
      (GetInstance 6 initPkg).2.heap[a]? = some { initTime := 6, logs := [] }) ∧
    (∃ s, runCalls [Call.getInstance 4, Call.log 0 "a"] initSys = some s ∧
      (s.pkg.once.done = true ↔ s.pkg.instanceSlot ≠ none) ∧
      (∀ r ∈ s.returned, r ≠ none) ∧
      (GetInstance 6 s.pkg).1 ≠ none)) :=
  ⟨by decide, lazy_on_first_access _ 6 (by decide)⟩

end mylazylogger

/-! ## Properties of the eager config -/

namespace myconfig

theorem lookup_filter_ne (kvs : List (String × Any)) (key key1 : String)
    (h : key1 ≠ key) :
    (kvs.filter fun e => e.1 ≠ key).lookup key1 = kvs.lookup key1 := by
  induction kvs with
  | nil => rfl
  | cons e kvs ih =>
    obtain ⟨k0, v0⟩ := e
    simp only [ne_eq, decide_not] at ih ⊢
    by_cases hk : k0 = key
    · subst hk
      have hne : (key1 == k0) = false := by simpa using h
      simp [List.filter_cons, List.lookup_cons, hne, ih]
    · by_cases h1 : key1 = k0
      · subst h1
        simp [List.filter_cons, hk, List.lookup_cons]
      · have hne : (key1 == k0) = false := by simpa using h1
        simp [List.filter_cons, hk, List.lookup_cons, hne, ih]

theorem mapGet_mapSet_other (kvs : List (String × Any)) (key key1 : String)
    (value : Any) (h : key1 ≠ key) :
    mapGet (some ((key, value) :: kvs.filter fun e => e.1 ≠ key)) key1 =
      mapGet (some kvs) key1 := by
  have hne : (key1 == key) = false := by simpa using h
  simp only [mapGet, List.lookup_cons, hne]
  rw [lookup_filter_ne kvs key key1 h]

theorem startSys_loaded :
    ∃ s0, startSys = some s0 ∧ Loaded [("db_host", Any.str "localhost")] s0 ∧
      s0.returned = [] := by
  refine ⟨_, rfl, ?_, rfl⟩
  refine ⟨rfl, ?_, ?_⟩
  · simp [zeroPkg, println, mapSet]
  · intro r hr
    cases hr

theorem ref_loaded (kvs : List (String × Any)) (s : Sys) (h : Loaded kvs s)
    (j : Nat) (hj : j < s.returned.length) : s.ref j = some 0 := by
  obtain ⟨-, -, hr⟩ := h
  have : s.returned[j]? = some (s.returned[j]) := List.getElem?_eq_getElem hj
  simp only [Sys.ref, this, Option.getD_some]
  exact hr _ (List.getElem_mem hj)

theorem setSetting_loaded (kvs : List (String × Any)) (p : Pkg) (key : String)
    (value : Any)
    (hh : p.heap = [{ AppName := "GoApp", Version := "0.1.0", Settings := some kvs }]) :
    AppConfig.SetSetting (some 0) key value p =
      some (println (Line.settingUpdated key value)
        { p with heap := [{ AppName := "GoApp", Version := "0.1.0",
                            Settings := some ((key, value) :: kvs.filter fun e => e.1 ≠ key) }] }) := by
  simp [AppConfig.SetSetting, assignSetting, hh, mapSet]

/-- From a loaded state every well-formed sequence of calls runs to the end and
keeps the invariant; without a `SetSetting` the map is unchanged. -/
theorem run_loaded (cs : List Call) :
    ∀ (s : Sys) (kvs : List (String × Any)), Loaded kvs s →
      wellFormed s.returned.length cs = true →
      ∃ s1 kvs1, runCalls cs s = some s1 ∧ Loaded kvs1 s1 ∧
        (noSet cs = true → kvs1 = kvs) := by
  induction cs with
  | nil =>
    intro s kvs hl _
    exact ⟨s, kvs, rfl, hl, fun _ => rfl⟩
  | cons c cs ih =>
    intro s kvs hl hwf
    cases c with
    | getInstance =>
      have hl1 : Loaded kvs
          ⟨(GetInstance s.pkg).2, s.returned ++ [(GetInstance s.pkg).1], s.values⟩ := by
        obtain ⟨hg, hh, hr⟩ := hl
        refine ⟨hg, hh, ?_⟩
        intro r hr1
        simp only [List.mem_append, List.mem_singleton] at hr1
        rcases hr1 with hr1 | hr1
        · exact hr r hr1
        · rw [hr1]
          exact hg
      have hwf1 : wellFormed (s.returned ++ [(GetInstance s.pkg).1]).length cs = true := by
        simpa [wellFormed] using hwf
      obtain ⟨s2, kvs2, h2, hl2, hn2⟩ := ih _ kvs hl1 hwf1
      exact ⟨s2, kvs2, by simpa [runCalls, applyCall] using h2, hl2,
        fun hn => hn2 (by simpa [noSet] using hn)⟩
    | setSetting j key value =>
      simp only [wellFormed, Bool.and_eq_true, decide_eq_true_eq] at hwf
      have hj := ref_loaded kvs s hl j hwf.1
      obtain ⟨hg, hh, hr⟩ := hl
      have hset := setSetting_loaded kvs s.pkg key value hh
      have hl1 : Loaded ((key, value) :: kvs.filter fun e => e.1 ≠ key)
          ⟨println (Line.settingUpdated key value)
            ⟨[⟨"GoApp", "0.1.0", some ((key, value) :: kvs.filter fun e => e.1 ≠ key)⟩],
              s.pkg.globalConfig, s.pkg.stdout⟩, s.returned, s.values⟩ :=
        ⟨hg, rfl, hr⟩
      obtain ⟨s2, kvs2, h2, hl2, -⟩ := ih _ _ hl1 hwf.2
      refine ⟨s2, kvs2, ?_, hl2, fun hn => by simp [noSet] at hn⟩
      simp only [runCalls, applyCall, hj, hset, Option.map_some', Option.some_bind]
      exact h2
    | getSetting j key =>
      simp only [wellFormed, Bool.and_eq_true, decide_eq_true_eq] at hwf
      have hj := ref_loaded kvs s hl j hwf.1
      have hl1 : Loaded kvs { s with values := s.values ++ [mapGet (some kvs) key] } := hl
      obtain ⟨s2, kvs2, h2, hl2, hn2⟩ := ih _ kvs hl1 hwf.2
      refine ⟨s2, kvs2, ?_, hl2, fun hn => hn2 (by simpa [noSet] using hn)⟩
      obtain ⟨hg, hh, hr⟩ := hl
      simp only [runCalls, applyCall, hj, AppConfig.GetSetting, hh, List.getElem?_cons_zero,
        Option.map_some', Option.some_bind]
      exact h2

/-- C7: load the package and run any well-formed sequence of calls.  Any two
references `cfg1`, `cfg2` the client received from `GetInstance` are equal, and
for every key and value `cfg2.SetSetting(key, value)` returns, after which
`GetSetting(key)` returns `value` through `cfg1` and through `cfg2`. -/
theorem config_shared (cs : List Call) (key : String) (value : Any)
    (h : wellFormed 0 cs = true) :
    ∃ s0 s, startSys = some s0 ∧ runCalls cs s0 = some s ∧
      ∀ cfg1 ∈ s.returned, ∀ cfg2 ∈ s.returned, cfg1 = cfg2 ∧
        ∃ p, AppConfig.SetSetting cfg2 key value s.pkg = some p ∧
          AppConfig.GetSetting cfg1 key p = some (value, p) ∧
          AppConfig.GetSetting cfg2 key p = some (value, p) := by
  obtain ⟨s0, h0, hl0, hr0⟩ := startSys_loaded
  have hwf : wellFormed s0.returned.length cs = true := by
    rw [hr0]; exact h
  obtain ⟨s, kvs, hrun, hl, -⟩ := run_loaded cs s0 _ hl0 hwf
  refine ⟨s0, s, h0, hrun, ?_⟩
  intro cfg1 h1 cfg2 h2
  obtain ⟨hg, hh, hr⟩ := hl
  rw [hr cfg1 h1, hr cfg2 h2]
  refine ⟨rfl, _, setSetting_loaded kvs s.pkg key value hh, ?_⟩
  simp [AppConfig.GetSetting, println, mapGet, List.lookup_cons]

/-- Instance of `config_shared`: the config demo of main.go. -/
theorem config_shared_witness :
    wellFormed 0 [Call.getInstance, Call.getSetting 0 "db_host", Call.getInstance] = true ∧
    ∃ s0 s, startSys = some s0 ∧
      runCalls [Call.getInstance, Call.getSetting 0 "db_host", Call.getInstance] s0 = some s ∧
      ∀ cfg1 ∈ s.returned, ∀ cfg2 ∈ s.returned, cfg1 = cfg2 ∧
        ∃ p, AppConfig.SetSetting cfg2 "db_host" (Any.str "remote-db.example.com") s.pkg
            = some p ∧
          AppConfig.GetSetting cfg1 "db_host" p
            = some (Any.str "remote-db.example.com", p) ∧
          AppConfig.GetSetting cfg2 "db_host" p
            = some (Any.str "remote-db.example.com", p) :=
  ⟨by decide, config_shared _ "db_host" (Any.str "remote-db.example.com") (by decide)⟩

/-- C8: before `init` the variable `globalConfig` is nil; `init` returns and
leaves it pointing at the `AppConfig` with name "GoApp", version "0.1.0" and
the single entry "db_host" -> "localhost".  After any well-formed sequence of
client calls, `GetInstance` returns that address and changes neither the heap
nor `globalConfig` (it only prints); and when no `SetSetting` was called the
object is still the one `init` built and `GetSetting("db_host")` returns
"localhost". -/
theorem config_eager (cs : List Call) (h : wellFormed 0 cs = true) :
    zeroPkg.globalConfig = none ∧
    ∃ p0, init zeroPkg = some p0 ∧ p0.globalConfig = some 0 ∧
      p0.heap = [{ AppName := "GoApp", Version := "0.1.0",
                   Settings := some [("db_host", Any.str "localhost")] }] ∧
      ∃ s, runCalls cs { pkg := p0, returned := [], values := [] } = some s ∧
        (GetInstance s.pkg).1 = some 0 ∧
        (GetInstance s.pkg).2.heap = s.pkg.heap ∧
        (GetInstance s.pkg).2.globalConfig = s.pkg.globalConfig ∧
        (GetInstance s.pkg).2.stdout = s.pkg.stdout ++ [Line.getInstanceCalled] ∧
        (∀ r ∈ s.returned, r = some 0) ∧
        (noSet cs = true →
          s.pkg.heap = p0.heap ∧
          AppConfig.GetSetting (GetInstance s.pkg).1 "db_host" (GetInstance s.pkg).2
            = some (Any.str "localhost", (GetInstance s.pkg).2)) := by
  refine ⟨rfl, ?_⟩
  obtain ⟨s0, h0, hl0, hr0⟩ := startSys_loaded
  have hwf : wellFormed s0.returned.length cs = true := by
    rw [hr0]; exact h
  obtain ⟨s, kvs, hrun, hl, hns⟩ := run_loaded cs s0 _ hl0 hwf
  have hs0 : s0 = { pkg := s0.pkg, returned := [], values := [] } := by
    simp only [startSys, Option.map_eq_some'] at h0
    obtain ⟨p, -, hp⟩ := h0
    rw [← hp]
  have hinit : init zeroPkg = some s0.pkg := by
    simp only [startSys, Option.map_eq_some'] at h0
    obtain ⟨p, hp1, hp2⟩ := h0
    rw [hp1, ← hp2]
  refine ⟨s0.pkg, hinit, hl0.1, hl0.2.1, s, ?_, ?_, rfl, rfl, rfl, hl.2.2, ?_⟩
  · rw [← hs0]; exact hrun
  · exact hl.1
  · intro hn
    have hk := hns hn
    subst hk
    refine ⟨by rw [hl.2.1, hl0.2.1], ?_⟩
    simp [GetInstance, hl.1, AppConfig.GetSetting, println, hl.2.1, mapGet, List.lookup_cons]

/-- Instance of `config_eager`: two fetches and a read. -/
theorem config_eager_witness :
    wellFormed 0 [Call.getInstance, Call.getSetting 0 "db_host", Call.getInstance] = true ∧
    zeroPkg.globalConfig = none ∧
    ∃ p0, init zeroPkg = some p0 ∧ p0.globalConfig = some 0 ∧
      p0.heap = [{ AppName := "GoApp", Version := "0.1.0",
                   Settings := some [("db_host", Any.str "localhost")] }] ∧
      ∃ s, runCalls [Call.getInstance, Call.getSetting 0 "db_host", Call.getInstance]
          { pkg := p0, returned := [], values := [] } = some s ∧
        (GetInstance s.pkg).1 = some 0 ∧
        (GetInstance s.pkg).2.heap = s.pkg.heap ∧
        (GetInstance s.pkg).2.globalConfig = s.pkg.globalConfig ∧
        (GetInstance s.pkg).2.stdout = s.pkg.stdout ++ [Line.getInstanceCalled] ∧
        (∀ r ∈ s.returned, r = some 0) ∧
        (noSet [Call.getInstance, Call.getSetting 0 "db_host", Call.getInstance] = true →
          s.pkg.heap = p0.heap ∧
          AppConfig.GetSetting (GetInstance s.pkg).1 "db_host" (GetInstance s.pkg).2
            = some (Any.str "localhost", (GetInstance s.pkg).2)) :=
  ⟨by decide, config_eager _ (by decide)⟩

/-- C10, at the zero value `AppConfig{}`, whose map is nil: `SetSetting` panics
on the assignment, so there is no state after two `SetSetting` calls in which
`GetSetting` returns the second value. -/
theorem setSetting_nil_map_panics :
    AppConfig.SetSetting (some 0) "k" (Any.int 1)
        { heap := [{ AppName := "", Version := "", Settings := none }],
          globalConfig := none, stdout := [] } = none ∧
    ¬ ∃ p1 p2,
      AppConfig.SetSetting (some 0) "k" (Any.int 1)
        { heap := [{ AppName := "", Version := "", Settings := none }],
          globalConfig := none, stdout := [] } = some p1 ∧
      AppConfig.SetSetting (some 0) "k" (Any.int 2) p1 = some p2 ∧
      AppConfig.GetSetting (some 0) "k" p2 = some (Any.int 2, p2) := by
  refine ⟨rfl, ?_⟩
  rintro ⟨p1, p2, h1, -, -⟩
  have h0 : AppConfig.SetSetting (some 0) "k" (Any.int 1)
      { heap := [{ AppName := "", Version := "", Settings := none }],
        globalConfig := none, stdout := [] } = none := rfl
  rw [h0] at h1
  cases h1

/-- C10, amended: take any `AppConfig` at address `a`, in any package state.
When its map is not nil, `SetSetting(key, v1)` returns; afterwards
`GetSetting(key)` returns `v1`, `GetSetting` of every other key returns the
value it returned before, `AppName` and `Version` are unchanged, the map is
still not nil, every other object and `globalConfig` are unchanged; a second
`SetSetting(key, v2)` returns and then `GetSetting(key)` returns `v2`.
When its map is nil, `SetSetting` panics.
Whatever the map, nil included: `GetSetting` returns the entry of the key and
leaves the package state exactly as it was, and it returns nil for a key
without an entry. -/
theorem setSetting_frame (p : Pkg) (a : Nat) (cfg : AppConfig)
    (key : String) (v1 v2 : Any) (h : p.heap[a]? = some cfg) :
    (∀ kvs, cfg.Settings = some kvs →
      ∃ p1 cfg1, AppConfig.SetSetting (some a) key v1 p = some p1 ∧
        p1.heap[a]? = some cfg1 ∧ cfg1.AppName = cfg.AppName ∧
        cfg1.Version = cfg.Version ∧ cfg1.Settings ≠ none ∧
        AppConfig.GetSetting (some a) key p1 = some (v1, p1) ∧
        (∀ key1, key1 ≠ key →
          (AppConfig.GetSetting (some a) key1 p1).map Prod.fst =
            (AppConfig.GetSetting (some a) key1 p).map Prod.fst) ∧
        (∀ b, b ≠ a → p1.heap[b]? = p.heap[b]?) ∧
        p1.globalConfig = p.globalConfig ∧
        ∃ p2, AppConfig.SetSetting (some a) key v2 p1 = some p2 ∧
          AppConfig.GetSetting (some a) key p2 = some (v2, p2)) ∧
    (cfg.Settings = none → AppConfig.SetSetting (some a) key v1 p = none) ∧
    (∀ key1, AppConfig.GetSetting (some a) key1 p = some (mapGet cfg.Settings key1, p)) ∧
    (∀ key1, (∀ kvs, cfg.Settings = some kvs → kvs.lookup key1 = none) →
      AppConfig.GetSetting (some a) key1 p = some (Any.nil, p)) := by
  have ha : a < p.heap.length := by
    rcases Nat.lt_or_ge a p.heap.length with hlt | hge
    · exact hlt
    · rw [List.getElem?_eq_none hge] at h
      cases h
  refine ⟨?_, ?_, ?_, ?_⟩
  · intro kvs hm
    refine ⟨println (Line.settingUpdated key v1)
        ⟨p.heap.set a
            ⟨cfg.AppName, cfg.Version, some ((key, v1) :: kvs.filter fun e => e.1 ≠ key)⟩,
          p.globalConfig, p.stdout⟩,
      ⟨cfg.AppName, cfg.Version, some ((key, v1) :: kvs.filter fun e => e.1 ≠ key)⟩,
      ?_, ?_, rfl, rfl, by simp, ?_, ?_, ?_, rfl, ?_⟩
    · simp [AppConfig.SetSetting, assignSetting, h, hm, mapSet]
    · simp [println, List.getElem?_set, ha]
    · simp [AppConfig.GetSetting, println, List.getElem?_set, ha, mapGet, List.lookup_cons]
    · intro key1 hne
      simp only [AppConfig.GetSetting, println, List.getElem?_set, ha, if_true, h,
        Option.map_some', hm]
      rw [mapGet_mapSet_other kvs key key1 v1 hne]
    · intro b hb
      simp [println, List.getElem?_set, Ne.symm hb]
    · refine ⟨println (Line.settingUpdated key v2)
        ⟨(p.heap.set a
            ⟨cfg.AppName, cfg.Version,
              some ((key, v1) :: kvs.filter fun e => e.1 ≠ key)⟩).set a
            ⟨cfg.AppName, cfg.Version, some ((key, v2) ::
                ((key, v1) :: kvs.filter fun e => e.1 ≠ key).filter fun e => e.1 ≠ key)⟩,
          p.globalConfig, p.stdout ++ [Line.settingUpdated key v1]⟩, ?_, ?_⟩
      · simp [AppConfig.SetSetting, assignSetting, println, List.getElem?_set, ha, mapSet]
      · simp [AppConfig.GetSetting, println, List.getElem?_set, ha, mapGet, List.lookup_cons]
  · intro hm
    simp [AppConfig.SetSetting, assignSetting, h, hm, mapSet]
  · intro key1
    simp [AppConfig.GetSetting, h]
  · intro key1 hnone
    cases hm : cfg.Settings with
    | none => simp [AppConfig.GetSetting, h, hm, mapGet]
    | some kvs => simp [AppConfig.GetSetting, h, hm, mapGet, hnone kvs hm]

/-- Instance of `setSetting_frame`: the config built by `init`, and next to it on
the heap the zero value `AppConfig{}`, whose map is nil. -/
theorem setSetting_frame_witness :
    (∃ p1 cfg1, AppConfig.SetSetting (some 0) "db_host" (Any.str "a")
        { heap := [⟨"GoApp", "0.1.0", some [("db_host", Any.str "localhost")]⟩, ⟨"", "", none⟩],
          globalConfig := some 0, stdout := [] } = some p1 ∧
      p1.heap[0]? = some cfg1 ∧ cfg1.AppName = "GoApp" ∧
      cfg1.Version = "0.1.0" ∧ cfg1.Settings ≠ none ∧
      AppConfig.GetSetting (some 0) "db_host" p1 = some (Any.str "a", p1) ∧
      (∀ key1, key1 ≠ "db_host" →
        (AppConfig.GetSetting (some 0) key1 p1).map Prod.fst =
          (AppConfig.GetSetting (some 0) key1
            { heap := [⟨"GoApp", "0.1.0", some [("db_host", Any.str "localhost")]⟩,
                       ⟨"", "", none⟩],
              globalConfig := some 0, stdout := [] }).map Prod.fst) ∧
      (∀ b, b ≠ 0 → p1.heap[b]? =
        [(⟨"GoApp", "0.1.0", some [("db_host", Any.str "localhost")]⟩ : AppConfig),
          ⟨"", "", none⟩][b]?) ∧
      p1.globalConfig = some 0 ∧
      ∃ p2, AppConfig.SetSetting (some 0) "db_host" (Any.str "b") p1 = some p2 ∧
        AppConfig.GetSetting (some 0) "db_host" p2 = some (Any.str "b", p2)) ∧
    AppConfig.GetSetting (some 0) "port"
        { heap := [⟨"GoApp", "0.1.0", some [("db_host", Any.str "localhost")]⟩, ⟨"", "", none⟩],
          globalConfig := some 0, stdout := [] } =
      some (Any.nil,
        { heap := [⟨"GoApp", "0.1.0", some [("db_host", Any.str "localhost")]⟩, ⟨"", "", none⟩],
          globalConfig := some 0, stdout := [] }) ∧
    AppConfig.SetSetting (some 1) "k" (Any.int 1)
        { heap := [⟨"GoApp", "0.1.0", some [("db_host", Any.str "localhost")]⟩, ⟨"", "", none⟩],
          globalConfig := some 0, stdout := [] } = none ∧
    AppConfig.GetSetting (some 1) "k"
        { heap := [⟨"GoApp", "0.1.0", some [("db_host", Any.str "localhost")]⟩, ⟨"", "", none⟩],
          globalConfig := some 0, stdout := [] } =
      some (Any.nil,
        { heap := [⟨"GoApp", "0.1.0", some [("db_host", Any.str "localhost")]⟩, ⟨"", "", none⟩],
          globalConfig := some 0, stdout := [] }) :=
  ⟨(setSetting_frame
      { heap := [⟨"GoApp", "0.1.0", some [("db_host", Any.str "localhost")]⟩, ⟨"", "", none⟩],
        globalConfig := some 0, stdout := [] }
      0 ⟨"GoApp", "0.1.0", some [("db_host", Any.str "localhost")]⟩
      "db_host" (Any.str "a") (Any.str "b") rfl).1 _ rfl,
   (setSetting_frame
      { heap := [⟨"GoApp", "0.1.0", some [("db_host", Any.str "localhost")]⟩, ⟨"", "", none⟩],
        globalConfig := some 0, stdout := [] }
      0 ⟨"GoApp", "0.1.0", some [("db_host", Any.str "localhost")]⟩
      "db_host" (Any.str "a") (Any.str "b") rfl).2.2.2 "port"
        (fun kvs hk => by cases hk; rfl),
   (setSetting_frame
      { heap := [⟨"GoApp", "0.1.0", some [("db_host", Any.str "localhost")]⟩, ⟨"", "", none⟩],
        globalConfig := some 0, stdout := [] }
      1 ⟨"", "", none⟩ "k" (Any.int 1) (Any.int 2) rfl).2.1 rfl,
   (setSetting_frame
      { heap := [⟨"GoApp", "0.1.0", some [("db_host", Any.str "localhost")]⟩, ⟨"", "", none⟩],
        globalConfig := some 0, stdout := [] }
      1 ⟨"", "", none⟩ "k" (Any.int 1) (Any.int 2) rfl).2.2.2 "k"
        (fun kvs hk => by cases hk)⟩

end myconfig

/-! ## Properties of the interleaving semantics -/

namespace mylazylogger

section

variable {render : Time → String}

theorem run_snoc (sched : List (Nat × Time)) (ev : Nat × Time) (s : Conc) :
    run render (sched ++ [ev]) s = step render (run render sched s) ev := by
  simp [run, List.foldl_append]

theorem run_append (sched1 sched2 : List (Nat × Time)) (s : Conc) :
    run render (sched1 ++ sched2) s = run render sched2 (run render sched1 s) := by
  simp [run, List.foldl_append]

/-- The predicate `pcOK` reads only `done`, the slot, the size of the heap and
the counter. -/
theorem pcOK_congr (p q : Pkg) (g : Goroutine) (hd : q.once.done = p.once.done)
    (hs : q.instanceSlot = p.instanceSlot) (hh : q.heap.length = p.heap.length)
    (hn : q.newLoggerCalls = p.newLoggerCalls) (h : pcOK p g) : pcOK q g := by
  have eA : PhaseA q = PhaseA p := by simp only [PhaseA, hd, hs, hh, hn]
  have eB : PhaseB q = PhaseB p := by simp only [PhaseB, hd, hs, hh, hn]
  have eC : PhaseC q = PhaseC p := by simp only [PhaseC, hd, hs, hh, hn]
  have eD : PhaseD q = PhaseD p := by simp only [PhaseD, hd, hs, hh, hn]
  unfold pcOK at h ⊢
  cases hpc : g.pc <;> simp only [hpc, eA, eB, eC, eD] at h ⊢ <;> exact h

/-- A goroutine outside the critical section, in a state where the gate has not
fired, is before its test of `done`: whatever happens to the shared state, its
program point stays consistent. -/
theorem pcOK_outside (p q : Pkg) (g : Goroutine) (hD : ¬ PhaseD p) (h : pcOK p g)
    (hcs : inCS g.pc = false) : pcOK q g := by
  unfold pcOK at h ⊢
  cases hpc : g.pc <;> simp only [hpc, inCS] at h hcs ⊢ <;>
    first
      | trivial
      | exact absurd hcs (by decide)
      | exact absurd h hD
      | exact absurd h.1 hD

theorem lt_of_getElem? (gs : List Goroutine) (i : Nat) (g : Goroutine)
    (h : gs[i]? = some g) : i < gs.length := by
  rcases Nat.lt_or_ge i gs.length with hlt | hge
  · exact hlt
  · rw [List.getElem?_eq_none hge] at h
    cases h

/-- Reading the list of goroutines after goroutine `i` was replaced. -/
theorem getElem?_set_cases (gs : List Goroutine) (i j : Nat) (g1 x : Goroutine)
    (h : (gs.set i g1)[j]? = some x) :
    (j = i ∧ x = g1) ∨ (j ≠ i ∧ gs[j]? = some x) := by
  rw [List.getElem?_set] at h
  by_cases hij : i = j
  · rw [if_pos hij] at h
    by_cases hlt : i < gs.length
    · rw [if_pos hlt] at h
      cases h
      exact Or.inl ⟨hij.symm, rfl⟩
    · rw [if_neg hlt] at h
      cases h
  · rw [if_neg hij] at h
    exact Or.inr ⟨fun e => hij e.symm, h⟩

/-- The invariant after goroutine `i` moved from `g` to `g1` and the shared
state became `q`, from what the move guarantees for the mover and for the
others. -/
theorem inv_update (s : Conc) (i : Nat) (g g1 : Goroutine) (q : Pkg)
    (hi : s.gs[i]? = some g)
    (hphase : PhaseA q ∨ PhaseB q ∨ PhaseC q ∨ PhaseD q)
    (hfree : q.once.m = false → PhaseA q ∨ PhaseD q)
    (hok : pcOK q g1)
    (hoks : ∀ (j : Nat) (gj : Goroutine), j ≠ i → s.gs[j]? = some gj → pcOK q gj)
    (hheld : inCS g1.pc = true → q.once.m = true)
    (hhelds : ∀ (j : Nat) (gj : Goroutine), j ≠ i → s.gs[j]? = some gj →
      inCS gj.pc = true → q.once.m = true)
    (howner : q.once.m = true → inCS g1.pc = true ∨
      ∃ (j : Nat) (gj : Goroutine), j ≠ i ∧ s.gs[j]? = some gj ∧ inCS gj.pc = true)
    (huniq : inCS g1.pc = true → ∀ (j : Nat) (gj : Goroutine), j ≠ i →
      s.gs[j]? = some gj → inCS gj.pc = false)
    (h : Inv s) : Inv { pkg := q, gs := s.gs.set i g1 } := by
  have hlt := lt_of_getElem? s.gs i g hi
  refine ⟨hphase, hfree, ?_, ?_, ?_, ?_⟩
  · intro j x hx
    rcases getElem?_set_cases s.gs i j g1 x hx with ⟨-, rfl⟩ | ⟨hne, hj⟩
    · exact hok
    · exact hoks j x hne hj
  · intro j x hx hcs
    rcases getElem?_set_cases s.gs i j g1 x hx with ⟨-, rfl⟩ | ⟨hne, hj⟩
    · exact hheld hcs
    · exact hhelds j x hne hj hcs
  · intro hm
    rcases howner hm with hcs | ⟨j, gj, hne, hj, hcs⟩
    · exact ⟨i, g1, List.getElem?_set_self hlt, hcs⟩
    · refine ⟨j, gj, ?_, hcs⟩
      show (s.gs.set i g1)[j]? = some gj
      rw [List.getElem?_set_ne (Ne.symm hne)]
      exact hj
  · intro a b ga gb ha hb hca hcb
    rcases getElem?_set_cases s.gs i a g1 ga ha with ⟨ea, rfl⟩ | ⟨hnea, hja⟩
    · rcases getElem?_set_cases s.gs i b ga gb hb with ⟨eb, -⟩ | ⟨hneb, hjb⟩
      · rw [ea, eb]
      · have := huniq hca b gb hneb hjb
        rw [this] at hcb
        cases hcb
    · rcases getElem?_set_cases s.gs i b g1 gb hb with ⟨eb, rfl⟩ | ⟨hneb, hjb⟩
      · have := huniq hcb a ga hnea hja
        rw [this] at hca
        cases hca
      · exact h.unique a b ga gb hja hjb hca hcb

theorem phase_congr (p q : Pkg) (hd : q.once.done = p.once.done)
    (hs : q.instanceSlot = p.instanceSlot) (hh : q.heap.length = p.heap.length)
    (hn : q.newLoggerCalls = p.newLoggerCalls) :
    (PhaseA q ↔ PhaseA p) ∧ (PhaseB q ↔ PhaseB p) ∧ (PhaseC q ↔ PhaseC p) ∧
      (PhaseD q ↔ PhaseD p) := by
  simp [PhaseA, PhaseB, PhaseC, PhaseD, hd, hs, hh, hn]

/-- A move that changes neither `once`, the slot, the size of the heap nor the
counter, and that does not enter or leave the critical section. -/
theorem inv_move_same (s : Conc) (i : Nat) (g g1 : Goroutine) (q : Pkg)
    (hi : s.gs[i]? = some g) (ho : q.once = s.pkg.once)
    (hs : q.instanceSlot = s.pkg.instanceSlot) (hh : q.heap.length = s.pkg.heap.length)
    (hn : q.newLoggerCalls = s.pkg.newLoggerCalls) (hcs : inCS g1.pc = inCS g.pc)
    (hok : pcOK q g1) (h : Inv s) : Inv { pkg := q, gs := s.gs.set i g1 } := by
  have hd : q.once.done = s.pkg.once.done := by rw [ho]
  have hm : q.once.m = s.pkg.once.m := by rw [ho]
  obtain ⟨eA, eB, eC, eD⟩ := phase_congr s.pkg q hd hs hh hn
  refine inv_update s i g g1 q hi ?_ ?_ hok ?_ ?_ ?_ ?_ ?_ h
  · rw [eA, eB, eC, eD]
    exact h.phase
  · intro hf
    rw [eA, eD]
    exact h.free (by rw [← hm]; exact hf)
  · intro j gj _ hj
    exact pcOK_congr s.pkg q gj hd hs hh hn (h.ok j gj hj)
  · intro hc
    rw [hm]
    exact h.held i g hi (by rw [← hcs]; exact hc)
  · intro j gj _ hj hc
    rw [hm]
    exact h.held j gj hj hc
  · intro hq
    obtain ⟨j, gj, hj, hc⟩ := h.owner (by rw [← hm]; exact hq)
    by_cases hji : j = i
    · subst hji
      rw [hi] at hj
      cases hj
      exact Or.inl (by rw [hcs]; exact hc)
    · exact Or.inr ⟨j, gj, hji, hj, hc⟩
  · intro hc j gj hne hj
    cases hcj : inCS gj.pc with
    | false => rfl
    | true =>
      exact absurd (h.unique j i gj g hj hi hcj (by rw [← hcs]; exact hc)) hne

/-- A move inside the critical section while the gate has not fired: the mutex
stays held, the others are outside and before their test of `done`. -/
theorem inv_move_cs (s : Conc) (i : Nat) (g g1 : Goroutine) (q : Pkg)
    (hi : s.gs[i]? = some g) (hm : q.once.m = s.pkg.once.m)
    (hin : inCS g.pc = true) (hin1 : inCS g1.pc = true) (hD : ¬ PhaseD s.pkg)
    (hphase : PhaseA q ∨ PhaseB q ∨ PhaseC q ∨ PhaseD q)
    (hok : pcOK q g1) (h : Inv s) : Inv { pkg := q, gs := s.gs.set i g1 } := by
  have hheld : q.once.m = true := by
    rw [hm]
    exact h.held i g hi hin
  have hout : ∀ (j : Nat) (gj : Goroutine), j ≠ i → s.gs[j]? = some gj →
      inCS gj.pc = false := by
    intro j gj hne hj
    cases hcj : inCS gj.pc with
    | false => rfl
    | true => exact absurd (h.unique j i gj g hj hi hcj hin) hne
  refine inv_update s i g g1 q hi hphase ?_ hok ?_ ?_ ?_ ?_ ?_ h
  · intro hf
    rw [hheld] at hf
    cases hf
  · intro j gj hne hj
    exact pcOK_outside s.pkg q gj hD (h.ok j gj hj) (hout j gj hne hj)
  · intro _
    exact hheld
  · intro j gj _ _ _
    exact hheld
  · intro _
    exact Or.inl hin1
  · intro _ j gj hne hj
    exact hout j gj hne hj

theorem heap_singleton (p : Pkg) (h : p.heap.length = 1) : ∃ lg, p.heap = [lg] := by
  cases hh : p.heap with
  | nil => rw [hh] at h; cases h
  | cons x xs =>
    cases xs with
    | nil => exact ⟨x, rfl⟩
    | cons y ys => rw [hh] at h; simp at h

/-- Every move of a goroutine keeps the invariant. -/
theorem stepG_inv (s : Conc) (i : Nat) (now : Time) (g : Goroutine)
    (r : Goroutine × Pkg) (hi : s.gs[i]? = some g)
    (hstep : stepG render now g s.pkg = some r) (h : Inv s) :
    Inv { pkg := r.2, gs := s.gs.set i r.1 } := by
  have hok := h.ok i g hi
  obtain ⟨pc, kind, logger⟩ := g
  cases pc with
  | start =>
    cases kind with
    | caller =>
      simp only [stepG, Option.some.injEq] at hstep
      subst hstep
      exact inv_move_same s i _ _ _ hi rfl rfl rfl rfl rfl trivial h
    | worker id =>
      simp only [stepG, Option.some.injEq] at hstep
      subst hstep
      exact inv_move_same s i _ _ _ hi rfl rfl rfl rfl rfl trivial h
  | enter =>
    simp only [stepG, Option.some.injEq] at hstep
    subst hstep
    exact inv_move_same s i _ _ _ hi rfl rfl rfl rfl rfl trivial h
  | doLoad =>
    simp only [stepG, Option.some.injEq] at hstep
    subst hstep
    cases hd : s.pkg.once.done with
    | false =>
      refine inv_move_same s i _ _ _ hi rfl rfl rfl rfl ?_ ?_ h
      · simp [hd, inCS]
      · simp [hd, pcOK]
    | true =>
      refine inv_move_same s i _ _ _ hi rfl rfl rfl rfl ?_ ?_ h
      · simp [hd, inCS]
      · simp only [hd, pcOK, if_true]
        rcases h.phase with hA | hB | hC | hD
        · rw [hA.1] at hd; cases hd
        · rw [hB.1] at hd; cases hd
        · rw [hC.1] at hd; cases hd
        · exact hD
  | lock =>
    simp only [stepG] at hstep
    cases hm : s.pkg.once.m with
    | true => simp [hm] at hstep
    | false =>
      simp only [hm, Bool.false_eq_true, if_false, Option.some.injEq] at hstep
      subst hstep
      obtain ⟨eA, eB, eC, eD⟩ := phase_congr s.pkg
        { s.pkg with once := { s.pkg.once with m := true } } rfl rfl rfl rfl
      refine inv_update s i _ _ _ hi ?_ ?_ ?_ ?_ ?_ ?_ ?_ ?_ h
      · rw [eA, eB, eC, eD]
        exact h.phase
      · intro hf
        cases hf
      · show PhaseA _ ∨ PhaseD _
        rw [eA, eD]
        exact h.free hm
      · intro j gj _ hj
        exact pcOK_congr s.pkg _ gj rfl rfl rfl rfl (h.ok j gj hj)
      · intro _
        rfl
      · intro j gj _ _ _
        rfl
      · intro _
        exact Or.inl rfl
      · intro _ j gj _ hj
        cases hcj : inCS gj.pc with
        | false => rfl
        | true =>
          have := h.held j gj hj hcj
          rw [hm] at this
          cases this
  | check =>
    simp only [stepG, Option.some.injEq] at hstep
    subst hstep
    have hok1 : PhaseA s.pkg ∨ PhaseD s.pkg := hok
    cases hd : s.pkg.once.done with
    | false =>
      refine inv_move_same s i _ _ _ hi rfl rfl rfl rfl ?_ ?_ h
      · simp [hd, inCS]
      · simp only [hd, pcOK, Bool.false_eq_true, if_false]
        rcases hok1 with hA | hD
        · exact hA
        · rw [hD.1] at hd; cases hd
    | true =>
      refine inv_move_same s i _ _ _ hi rfl rfl rfl rfl ?_ ?_ h
      · simp [hd, inCS]
      · simp only [hd, pcOK, if_true]
        rcases hok1 with hA | hD
        · rw [hA.1] at hd; cases hd
        · exact hD
  | runF =>
    simp only [stepG, Option.some.injEq] at hstep
    subst hstep
    have hok1 : PhaseA s.pkg := hok
    exact inv_move_same s i _ _ _ hi rfl rfl rfl rfl rfl hok1 h
  | alloc =>
    simp only [stepG, Option.some.injEq] at hstep
    subst hstep
    have hA : PhaseA s.pkg := hok
    obtain ⟨hd, hs, hh, hn⟩ := hA
    have hB : PhaseB (newLogger now s.pkg).2 := by
      refine ⟨hd, hs, ?_, ?_⟩
      · simp [newLogger, println, hh]
      · simp [newLogger, println, hn]
    have hD : ¬ PhaseD s.pkg := by
      rintro ⟨hd1, -, -, -⟩
      rw [hd] at hd1
      cases hd1
    refine inv_move_cs s i _ _ _ hi rfl rfl rfl hD (Or.inr (Or.inl hB)) ?_ h
    exact ⟨hB, by simp [newLogger, println, hh]⟩
  | assign a =>
    simp only [stepG, Option.some.injEq] at hstep
    subst hstep
    have hB : PhaseB s.pkg ∧ a = 0 := hok
    obtain ⟨⟨hd, hs, hh, hn⟩, ha⟩ := hB
    subst ha
    have hC : PhaseC { s.pkg with instanceSlot := some 0 } := ⟨hd, rfl, hh, hn⟩
    have hD : ¬ PhaseD s.pkg := by
      rintro ⟨hd1, -, -, -⟩
      rw [hd] at hd1
      cases hd1
    exact inv_move_cs s i _ _ _ hi rfl rfl rfl hD (Or.inr (Or.inr (Or.inl hC))) hC h
  | store =>
    simp only [stepG, Option.some.injEq] at hstep
    subst hstep
    have hC : PhaseC s.pkg := hok
    obtain ⟨hd, hs, hh, hn⟩ := hC
    have hD1 : PhaseD { s.pkg with once := { s.pkg.once with done := true } } :=
      ⟨rfl, hs, hh, hn⟩
    have hD : ¬ PhaseD s.pkg := by
      rintro ⟨hd1, -, -, -⟩
      rw [hd] at hd1
      cases hd1
    exact inv_move_cs s i _ _ _ hi rfl rfl rfl hD (Or.inr (Or.inr (Or.inr hD1))) hD1 h
  | unlock =>
    simp only [stepG, Option.some.injEq] at hstep
    subst hstep
    have hD : PhaseD s.pkg := hok
    obtain ⟨eA, eB, eC, eD⟩ := phase_congr s.pkg
      { s.pkg with once := { s.pkg.once with m := false } } rfl rfl rfl rfl
    have hD1 : PhaseD { s.pkg with once := { s.pkg.once with m := false } } := eD.mpr hD
    have hout : ∀ (j : Nat) (gj : Goroutine), j ≠ i → s.gs[j]? = some gj →
        inCS gj.pc = false := by
      intro j gj hne hj
      cases hcj : inCS gj.pc with
      | false => rfl
      | true => exact absurd (h.unique j i gj _ hj hi hcj rfl) hne
    refine inv_update s i _ _ _ hi (Or.inr (Or.inr (Or.inr hD1))) (fun _ => Or.inr hD1)
      hD1 ?_ ?_ ?_ ?_ ?_ h
    · intro j gj _ hj
      exact pcOK_congr s.pkg _ gj rfl rfl rfl rfl (h.ok j gj hj)
    · intro hc
      cases hc
    · intro j gj hne hj hc
      rw [hout j gj hne hj] at hc
      cases hc
    · intro hq
      cases hq
    · intro hc
      cases hc
  | ret =>
    have hD : PhaseD s.pkg := hok
    cases kind with
    | caller =>
      simp only [stepG, Option.some.injEq] at hstep
      subst hstep
      exact inv_move_same s i _ _ _ hi rfl rfl rfl rfl rfl ⟨hD, hD.2.1⟩ h
    | worker id =>
      simp only [stepG, Option.some.injEq] at hstep
      subst hstep
      exact inv_move_same s i _ _ _ hi rfl rfl rfl rfl rfl ⟨hD, hD.2.1, id, rfl⟩ h
  | getInitTime =>
    have hD : PhaseD s.pkg ∧ logger = some 0 ∧ ∃ id, kind = Kind.worker id := hok
    obtain ⟨hD, hl, id, hk⟩ := hD
    subst hl hk
    obtain ⟨lg, hlg⟩ := heap_singleton s.pkg hD.2.2.1
    simp only [stepG, Logger.GetInitTime, hlg, List.getElem?_cons_zero, Option.map_some',
      Option.some.injEq] at hstep
    subst hstep
    exact inv_move_same s i _ _ _ hi rfl rfl rfl rfl rfl ⟨hD, rfl, id, rfl⟩ h
  | logLoad msg =>
    have hD : PhaseD s.pkg ∧ logger = some 0 ∧ ∃ id, kind = Kind.worker id := hok
    obtain ⟨hD, hl, id, hk⟩ := hD
    subst hl hk
    obtain ⟨lg, hlg⟩ := heap_singleton s.pkg hD.2.2.1
    simp only [stepG, hlg, Option.some_bind, List.getElem?_cons_zero,
      Option.some.injEq] at hstep
    subst hstep
    exact inv_move_same s i _ _ _ hi rfl rfl rfl rfl rfl ⟨hD, rfl, id, rfl⟩ h
  | logStore msg old =>
    have hD : PhaseD s.pkg ∧ logger = some 0 ∧ ∃ id, kind = Kind.worker id := hok
    obtain ⟨hD, hl, id, hk⟩ := hD
    subst hl hk
    obtain ⟨lg, hlg⟩ := heap_singleton s.pkg hD.2.2.1
    simp only [stepG, hlg, List.getElem?_cons_zero, Option.some.injEq] at hstep
    subst hstep
    have hD1 : PhaseD (println (Line.log lg.initTime msg)
        { s.pkg with heap := [lg].set 0 { lg with logs := old ++ [msg] } }) :=
      ⟨hD.1, hD.2.1, rfl, hD.2.2.2⟩
    refine inv_move_same s i _ _ _ hi rfl rfl ?_ rfl rfl ⟨hD1, rfl⟩ h
    rw [hlg]
    rfl
  | finished => simp [stepG] at hstep
  | panicked => simp [stepG] at hstep

/-- The three outcomes of a scheduling event. -/
theorem step_cases (s : Conc) (ev : Nat × Time) :
    step render s ev = s ∨
    ∃ (g : Goroutine) (r : Goroutine × Pkg), s.gs[ev.1]? = some g ∧
      stepG render ev.2 g s.pkg = some r ∧
      step render s ev = { pkg := r.2, gs := s.gs.set ev.1 r.1 } := by
  cases hi : s.gs[ev.1]? with
  | none => exact Or.inl (by simp only [step, hi])
  | some g =>
    cases hstep : stepG render ev.2 g s.pkg with
    | none => exact Or.inl (by simp only [step, hi, hstep])
    | some r => exact Or.inr ⟨g, r, rfl, hstep, by simp only [step, hi, hstep]⟩

theorem step_inv (s : Conc) (ev : Nat × Time) (h : Inv s) : Inv (step render s ev) := by
  rcases step_cases s ev with he | ⟨g, r, hi, hstep, he⟩
  · rw [he]
    exact h
  · rw [he]
    exact stepG_inv s ev.1 ev.2 g r hi hstep h

theorem getElem?_spawn (kinds : List Kind) (j : Nat) (g : Goroutine)
    (h : (spawn kinds).gs[j]? = some g) :
    g.pc = PC.start ∧ g.logger = none ∧ kinds[j]? = some g.kind := by
  simp only [spawn, List.getElem?_map, Option.map_eq_some'] at h
  obtain ⟨k, hk, rfl⟩ := h
  exact ⟨rfl, rfl, hk⟩

theorem inv_spawn (kinds : List Kind) : Inv (spawn kinds) := by
  have hA : PhaseA (spawn kinds).pkg := ⟨rfl, rfl, rfl, rfl⟩
  refine ⟨Or.inl hA, fun _ => Or.inl hA, ?_, ?_, ?_, ?_⟩
  · intro j g hj
    have := (getElem?_spawn kinds j g hj).1
    simp [pcOK, this]
  · intro j g hj hc
    rw [(getElem?_spawn kinds j g hj).1] at hc
    cases hc
  · intro hm
    cases hm
  · intro i j gi gj hi _ hc _
    rw [(getElem?_spawn kinds i gi hi).1] at hc
    cases hc

/-- A goroutine that has not ended and does not wait for the mutex can move. -/
theorem stepG_enabled (now : Time) (g : Goroutine) (p : Pkg)
    (h1 : g.pc ≠ PC.finished) (h2 : g.pc ≠ PC.panicked)
    (h3 : g.pc = PC.lock → p.once.m = false) : (stepG render now g p).isSome = true := by
  obtain ⟨pc, kind, logger⟩ := g
  cases pc with
  | start => cases kind <;> rfl
  | enter => rfl
  | doLoad => rfl
  | lock => simp [stepG, h3 rfl]
  | check => rfl
  | runF => rfl
  | alloc => rfl
  | assign a => rfl
  | store => rfl
  | unlock => rfl
  | ret => cases kind <;> rfl
  | getInitTime =>
    cases kind <;> cases hg : Logger.GetInitTime logger p <;> simp [stepG, hg]
  | logLoad msg =>
    cases hg : (logger.bind fun a => p.heap[a]?) <;> simp [stepG, hg]
  | logStore msg old =>
    cases logger with
    | none => rfl
    | some a => cases hh : p.heap[a]? <;> simp [stepG, hh]
  | finished => exact absurd rfl h1
  | panicked => exact absurd rfl h2

/-- No deadlock: while some goroutine has not returned, some goroutine can move. -/
theorem no_deadlock (s : Conc) (h : Inv s) (j : Nat) (g : Goroutine)
    (hj : s.gs[j]? = some g) (hne : g.pc ≠ PC.finished) (now : Time) :
    ∃ (k : Nat) (gk : Goroutine), s.gs[k]? = some gk ∧
      (stepG render now gk s.pkg).isSome = true := by
  have hnp : ∀ (k : Nat) (gk : Goroutine), s.gs[k]? = some gk → gk.pc ≠ PC.panicked := by
    intro k gk hk hp
    have := h.ok k gk hk
    simp [pcOK, hp] at this
  cases hm : s.pkg.once.m with
  | false =>
    exact ⟨j, g, hj, stepG_enabled now g s.pkg hne (hnp j g hj) (fun _ => hm)⟩
  | true =>
    obtain ⟨k, gk, hk, hc⟩ := h.owner hm
    refine ⟨k, gk, hk, stepG_enabled now gk s.pkg ?_ (hnp k gk hk) ?_⟩
    · intro hf
      rw [hf] at hc
      cases hc
    · intro hl
      rw [hl] at hc
      cases hc

/-- Every move brings the goroutine closer to its end. -/
theorem stepG_rank (now : Time) (g : Goroutine) (p : Pkg) (r : Goroutine × Pkg)
    (h : stepG render now g p = some r) : rank r.1.pc < rank g.pc := by
  obtain ⟨pc, kind, logger⟩ := g
  cases pc with
  | start =>
    cases kind <;> simp only [stepG, Option.some.injEq] at h <;> subst h <;> simp [rank]
  | enter => simp only [stepG, Option.some.injEq] at h; subst h; simp [rank]
  | doLoad =>
    simp only [stepG, Option.some.injEq] at h
    subst h
    cases p.once.done <;> simp [rank]
  | lock =>
    simp only [stepG] at h
    cases hm : p.once.m with
    | true => simp [hm] at h
    | false =>
      simp only [hm, Bool.false_eq_true, if_false, Option.some.injEq] at h
      subst h
      simp [rank]
  | check =>
    simp only [stepG, Option.some.injEq] at h
    subst h
    cases p.once.done <;> simp [rank]
  | runF => simp only [stepG, Option.some.injEq] at h; subst h; simp [rank]
  | alloc =>
    simp only [stepG, Option.some.injEq] at h
    subst h
    simp [rank]
  | assign a =>
    simp only [stepG, Option.some.injEq] at h
    subst h
    simp [rank]
  | store => simp only [stepG, Option.some.injEq] at h; subst h; simp [rank]
  | unlock => simp only [stepG, Option.some.injEq] at h; subst h; simp [rank]
  | ret =>
    cases kind <;> simp only [stepG, Option.some.injEq] at h <;> subst h <;> simp [rank]
  | getInitTime =>
    cases kind <;> cases hg : Logger.GetInitTime logger p <;>
      simp only [stepG, hg, Option.some.injEq] at h <;> subst h <;> simp [rank]
  | logLoad msg =>
    cases hg : (logger.bind fun a => p.heap[a]?) <;>
      simp only [stepG, hg, Option.some.injEq] at h <;> subst h <;> simp [rank]
  | logStore msg old =>
    cases logger with
    | none => simp only [stepG, Option.some.injEq] at h; subst h; simp [rank]
    | some a =>
      cases hg : p.heap[a]? <;>
        simp only [stepG, hg, Option.some.injEq] at h <;> subst h <;> simp [rank]
  | finished => simp [stepG] at h
  | panicked => simp [stepG] at h

theorem sum_map_set_lt (f : Goroutine → Nat) (gs : List Goroutine) :
    ∀ (i : Nat) (g g1 : Goroutine), gs[i]? = some g → f g1 < f g →
      ((gs.set i g1).map f).sum < (gs.map f).sum := by
  induction gs with
  | nil =>
    intro i g g1 h _
    simp at h
  | cons x xs ih =>
    intro i g g1 h hlt
    cases i with
    | zero =>
      simp only [List.getElem?_cons_zero, Option.some.injEq] at h
      subst h
      simp only [List.set_cons_zero, List.map_cons, List.sum_cons]
      omega
    | succ k =>
      simp only [List.getElem?_cons_succ] at h
      have := ih k g g1 h hlt
      simp only [List.set_cons_succ, List.map_cons, List.sum_cons]
      omega

/-- An event either changes nothing or reduces the steps still to take. -/
theorem step_progress (s : Conc) (ev : Nat × Time) :
    step render s ev = s ∨ remaining (step render s ev) < remaining s := by
  rcases step_cases s ev with he | ⟨g, r, hi, hstep, he⟩
  · exact Or.inl he
  · refine Or.inr ?_
    rw [he]
    exact sum_map_set_lt (fun g => rank g.pc) s.gs ev.1 g r.1 hi
      (stepG_rank ev.2 g s.pkg r hstep)

/-- What a move does to the heap and to the goroutine's kind: the heap is
untouched, or `newLogger` appends a fresh `Logger`, or the write of `Log`
replaces the message sequence of an object. -/
theorem stepG_heap (now : Time) (g : Goroutine) (p : Pkg) (r : Goroutine × Pkg)
    (h : stepG render now g p = some r) :
    r.1.kind = g.kind ∧
    (r.2.heap = p.heap ∨
     r.2.heap = p.heap ++ [{ initTime := now, logs := [] }] ∨
     ∃ (msg : String) (old : List String) (a : Nat) (lg : Logger),
       g.pc = PC.logStore msg old ∧ p.heap[a]? = some lg ∧
       r.2.heap = p.heap.set a { initTime := lg.initTime, logs := old ++ [msg] }) := by
  obtain ⟨pc, kind, logger⟩ := g
  cases pc with
  | start =>
    cases kind <;> simp only [stepG, Option.some.injEq] at h <;> subst h <;>
      exact ⟨rfl, Or.inl rfl⟩
  | enter => simp only [stepG, Option.some.injEq] at h; subst h; exact ⟨rfl, Or.inl rfl⟩
  | doLoad => simp only [stepG, Option.some.injEq] at h; subst h; exact ⟨rfl, Or.inl rfl⟩
  | lock =>
    simp only [stepG] at h
    cases hm : p.once.m with
    | true => simp [hm] at h
    | false =>
      simp only [hm, Bool.false_eq_true, if_false, Option.some.injEq] at h
      subst h
      exact ⟨rfl, Or.inl rfl⟩
  | check => simp only [stepG, Option.some.injEq] at h; subst h; exact ⟨rfl, Or.inl rfl⟩
  | runF => simp only [stepG, Option.some.injEq] at h; subst h; exact ⟨rfl, Or.inl rfl⟩
  | alloc =>
    simp only [stepG, Option.some.injEq] at h
    subst h
    exact ⟨rfl, Or.inr (Or.inl rfl)⟩
  | assign a => simp only [stepG, Option.some.injEq] at h; subst h; exact ⟨rfl, Or.inl rfl⟩
  | store => simp only [stepG, Option.some.injEq] at h; subst h; exact ⟨rfl, Or.inl rfl⟩
  | unlock => simp only [stepG, Option.some.injEq] at h; subst h; exact ⟨rfl, Or.inl rfl⟩
  | ret =>
    cases kind <;> simp only [stepG, Option.some.injEq] at h <;> subst h <;>
      exact ⟨rfl, Or.inl rfl⟩
  | getInitTime =>
    cases kind <;> cases hg : Logger.GetInitTime logger p <;>
      simp only [stepG, hg, Option.some.injEq] at h <;> subst h <;> exact ⟨rfl, Or.inl rfl⟩
  | logLoad msg =>
    cases hg : (logger.bind fun a => p.heap[a]?) <;>
      simp only [stepG, hg, Option.some.injEq] at h <;> subst h <;> exact ⟨rfl, Or.inl rfl⟩
  | logStore msg old =>
    cases logger with
    | none => simp only [stepG, Option.some.injEq] at h; subst h; exact ⟨rfl, Or.inl rfl⟩
    | some a =>
      cases hg : p.heap[a]? with
      | none =>
        simp only [stepG, hg, Option.some.injEq] at h
        subst h
        exact ⟨rfl, Or.inl rfl⟩
      | some lg =>
        simp only [stepG, hg, Option.some.injEq] at h
        subst h
        exact ⟨rfl, Or.inr (Or.inr ⟨msg, old, a, lg, rfl, hg, rfl⟩)⟩
  | finished => simp [stepG] at h
  | panicked => simp [stepG] at h

/-- Every creation time on the heap after an event is an earlier one or the
clock value of the event. -/
theorem step_times (s : Conc) (ev : Nat × Time) (P : Time → Prop)
    (hP : ∀ lg ∈ s.pkg.heap, P lg.initTime) (hev : P ev.2) :
    ∀ lg ∈ (step render s ev).pkg.heap, P lg.initTime := by
  rcases step_cases s ev with he | ⟨g, r, hi, hstep, he⟩
  · rw [he]
    exact hP
  · rw [he]
    obtain ⟨-, hheap⟩ := stepG_heap ev.2 g s.pkg r hstep
    rcases hheap with hsame | happ | ⟨msg, old, a, lg0, -, ha, hset⟩
    · intro lg hlg
      exact hP lg (by rw [← hsame]; exact hlg)
    · intro lg hlg
      have hlg1 : lg ∈ s.pkg.heap ++ [{ initTime := ev.2, logs := [] }] := by
        rw [← happ]; exact hlg
      rcases List.mem_append.mp hlg1 with hm | hm
      · exact hP lg hm
      · rw [List.mem_singleton.mp hm]
        exact hev
    · intro lg hlg
      have hlg1 : lg ∈ s.pkg.heap.set a { initTime := lg0.initTime, logs := old ++ [msg] } := by
        rw [← hset]; exact hlg
      rcases List.mem_or_eq_of_mem_set hlg1 with hm | hm
      · exact hP lg hm
      · rw [hm]
        exact hP lg0 (List.mem_iff_getElem?.mpr ⟨a, ha⟩)

/-- With bare callers only, an event keeps every message sequence empty. -/
theorem step_quiet (s : Conc) (ev : Nat × Time) (h : Inv s) (hq : Quiet s) :
    Quiet (step render s ev) := by
  rcases step_cases s ev with he | ⟨g, r, hi, hstep, he⟩
  · rw [he]
    exact hq
  · rw [he]
    obtain ⟨hkind, hheap⟩ := stepG_heap ev.2 g s.pkg r hstep
    have hcaller : g.kind = Kind.caller := hq.1 ev.1 g hi
    have hkinds : ∀ (j : Nat) (x : Goroutine), (s.gs.set ev.1 r.1)[j]? = some x →
        x.kind = Kind.caller := by
      intro j x hx
      rcases getElem?_set_cases s.gs ev.1 j r.1 x hx with ⟨-, rfl⟩ | ⟨-, hj⟩
      · rw [hkind]
        exact hcaller
      · exact hq.1 j x hj
    rcases hheap with hsame | happ | ⟨msg, old, a, lg, hpc, -, -⟩
    · refine ⟨hkinds, ?_⟩
      intro lg hlg
      exact hq.2 lg (by rw [← hsame]; exact hlg)
    · refine ⟨hkinds, ?_⟩
      intro lg hlg
      have hlg1 : lg ∈ s.pkg.heap ++ [{ initTime := ev.2, logs := [] }] := by
        rw [← happ]; exact hlg
      rcases List.mem_append.mp hlg1 with hm | hm
      · exact hq.2 lg hm
      · rw [List.mem_singleton.mp hm]
    · have hok := h.ok ev.1 g hi
      simp only [pcOK, hpc] at hok
      obtain ⟨-, -, id, hid⟩ := hok
      have hbad : Kind.worker id = Kind.caller := hid.symm.trans hcaller
      cases hbad

theorem quiet_spawn (kinds : List Kind) (hk : ∀ k ∈ kinds, k = Kind.caller) :
    Quiet (spawn kinds) := by
  refine ⟨?_, ?_⟩
  · intro j g hj
    have h3 := (getElem?_spawn _ j g hj).2.2
    exact hk g.kind (List.mem_iff_getElem?.mpr ⟨j, h3⟩)
  · intro lg hlg
    cases hlg

/-- Along every schedule: the invariant, and creation times taken from the
clock values of the schedule; with bare callers only, empty message sequences. -/
theorem run_spawn (kinds : List Kind) (sched : List (Nat × Time)) :
    Inv (run render sched (spawn kinds)) ∧
    (∀ lg ∈ (run render sched (spawn kinds)).pkg.heap, ∃ ev ∈ sched, lg.initTime = ev.2) ∧
    ((∀ k ∈ kinds, k = Kind.caller) → Quiet (run render sched (spawn kinds))) := by
  induction sched using List.reverseRecOn with
  | nil =>
    refine ⟨inv_spawn _, ?_, quiet_spawn kinds⟩
    intro lg hlg
    cases hlg
  | append_singleton sched ev ih =>
    obtain ⟨hinv, ht, hq⟩ := ih
    rw [run_snoc]
    refine ⟨step_inv _ ev hinv, ?_, fun hk => step_quiet _ ev hinv (hq hk)⟩
    refine step_times _ ev (fun t => ∃ e ∈ sched ++ [ev], t = e.2) ?_ ?_
    · intro lg hlg
      obtain ⟨e, he, het⟩ := ht lg hlg
      exact ⟨e, List.mem_append_left _ he, het⟩
    · exact ⟨ev, List.mem_append_right _ (List.mem_singleton.mpr rfl), rfl⟩

theorem enabled_step_lt (s : Conc) (k : Nat) (gk : Goroutine) (now : Time)
    (hk : s.gs[k]? = some gk) (hen : (stepG render now gk s.pkg).isSome = true) :
    remaining (step render s (k, now)) < remaining s := by
  cases hs : stepG render now gk s.pkg with
  | none => rw [hs] at hen; cases hen
  | some r =>
    have hrk := stepG_rank now gk s.pkg r hs
    have := sum_map_set_lt (fun g => rank g.pc) s.gs k gk r.1 hk hrk
    simp only [step, hk, hs, remaining]
    exact this

/-- From every state of the invariant some schedule leads all goroutines to
their end. -/
theorem exists_completion (n : Nat) :
    ∀ (s : Conc), Inv s → remaining s ≤ n →
      ∃ sched, allFinished (run render sched s) = true := by
  induction n with
  | zero =>
    intro s h hr
    by_cases hall : allFinished s = true
    · exact ⟨[], hall⟩
    · exfalso
      simp only [allFinished, List.all_eq_true, decide_eq_true_eq, not_forall] at hall
      obtain ⟨g, hg, hne⟩ := hall
      obtain ⟨j, hj⟩ := List.mem_iff_getElem?.mp hg
      obtain ⟨k, gk, hk, hen⟩ := @no_deadlock render s h j g hj hne 0
      have := @enabled_step_lt render s k gk 0 hk hen
      omega
  | succ n ih =>
    intro s h hr
    by_cases hall : allFinished s = true
    · exact ⟨[], hall⟩
    · simp only [allFinished, List.all_eq_true, decide_eq_true_eq, not_forall] at hall
      obtain ⟨g, hg, hne⟩ := hall
      obtain ⟨j, hj⟩ := List.mem_iff_getElem?.mp hg
      obtain ⟨k, gk, hk, hen⟩ := @no_deadlock render s h j g hj hne 0
      have hlt := @enabled_step_lt render s k gk 0 hk hen
      obtain ⟨sched, hsched⟩ := ih (step render s (k, 0)) (step_inv s (k, 0) h) (by omega)
      exact ⟨(k, 0) :: sched, hsched⟩

end

/-- C3: spawn any number of goroutines, each a bare call of `GetInstance` or
the goroutine body of `main`, none taking a lock of its own, and run any
schedule.  In the state reached:
(a) `newLogger` has run at most once, and the heap holds as many `Logger`s as
it has run; (b) no goroutine has panicked, and every goroutine whose
`GetInstance` has returned holds the non-nil address 0, the value of the slot,
at which the heap holds the one `Logger`, its creation time a clock value of the
schedule, and its message sequence empty when all goroutines are bare callers;
(c) there is no deadlock (while a goroutine has not ended, some goroutine can
move), every event either changes nothing or reduces the steps still to take,
and the schedule can be continued until every goroutine has ended. -/
theorem getInstance_concurrent (render : Time → String) (kinds : List Kind)
    (sched : List (Nat × Time)) :
    (afterSpawn render kinds sched).gs.length = kinds.length ∧
    (afterSpawn render kinds sched).pkg.newLoggerCalls ≤ 1 ∧
    (afterSpawn render kinds sched).pkg.heap.length =
      (afterSpawn render kinds sched).pkg.newLoggerCalls ∧
    (∀ (j : Nat) (g : Goroutine), (afterSpawn render kinds sched).gs[j]? = some g →
      g.pc ≠ PC.panicked ∧
      (hasReturned g.pc = true →
        g.logger = some 0 ∧ (afterSpawn render kinds sched).pkg.instanceSlot = some 0 ∧
        ∃ ev ∈ sched, ∃ logs,
          (afterSpawn render kinds sched).pkg.heap = [{ initTime := ev.2, logs := logs }] ∧
          ((∀ k ∈ kinds, k = Kind.caller) → logs = []))) ∧
    (∀ (j : Nat) (g : Goroutine) (now : Time),
      (afterSpawn render kinds sched).gs[j]? = some g →
      g.pc ≠ PC.finished →
      ∃ (k : Nat) (gk : Goroutine), (afterSpawn render kinds sched).gs[k]? = some gk ∧
        (stepG render now gk (afterSpawn render kinds sched).pkg).isSome = true) ∧
    (∀ ev, step render (afterSpawn render kinds sched) ev = afterSpawn render kinds sched ∨
      remaining (step render (afterSpawn render kinds sched) ev) <
        remaining (afterSpawn render kinds sched)) ∧
    (∃ more, allFinished (afterSpawn render kinds (sched ++ more)) = true) := by
  obtain ⟨hinv, ht, hq⟩ := run_spawn kinds sched
  have hlen : ∀ (sch : List (Nat × Time)) (s : Conc),
      (run render sch s).gs.length = s.gs.length := by
    intro sch
    induction sch with
    | nil => intro s; rfl
    | cons ev sch ih =>
      intro s
      show (run render sch (step render s ev)).gs.length = s.gs.length
      rw [ih (step render s ev)]
      rcases step_cases s ev with he | ⟨g, r, -, -, he⟩
      · rw [he]
      · rw [he]
        simp
  refine ⟨?_, ?_, ?_, ?_, ?_, ?_, ?_⟩
  · show (run render sched (spawn kinds)).gs.length = kinds.length
    rw [hlen]
    simp [spawn]
  · show (run render sched (spawn kinds)).pkg.newLoggerCalls ≤ 1
    rcases hinv.phase with hp | hp | hp | hp
    · rw [hp.2.2.2]
      exact Nat.zero_le 1
    · rw [hp.2.2.2]
    · rw [hp.2.2.2]
    · rw [hp.2.2.2]
  · show (run render sched (spawn kinds)).pkg.heap.length =
      (run render sched (spawn kinds)).pkg.newLoggerCalls
    rcases hinv.phase with hp | hp | hp | hp <;> rw [hp.2.2.2, hp.2.2.1]
  · intro j g hj
    have hok := hinv.ok j g hj
    refine ⟨?_, ?_⟩
    · intro hp
      simp [pcOK, hp] at hok
    · intro hf
      have hDl : PhaseD (run render sched (spawn kinds)).pkg ∧ g.logger = some 0 := by
        unfold pcOK at hok
        cases hpc : g.pc <;> simp only [hpc, hasReturned] at hok hf <;>
          first
            | exact absurd hf (by decide)
            | exact ⟨hok.1, hok.2.1⟩
            | exact hok
      obtain ⟨hD, hl⟩ := hDl
      obtain ⟨lg, hlg⟩ := heap_singleton _ hD.2.2.1
      have hmem : lg ∈ (run render sched (spawn kinds)).pkg.heap := by
        rw [hlg]
        exact List.mem_singleton.mpr rfl
      obtain ⟨ev, hev, het⟩ := ht lg hmem
      refine ⟨hl, hD.2.1, ev, hev, lg.logs, ?_, ?_⟩
      · show (run render sched (spawn kinds)).pkg.heap = _
        rw [hlg, ← het]
      · intro hk
        exact (hq hk).2 lg hmem
  · intro j g now hj hne
    exact no_deadlock _ hinv j g hj hne now
  · intro ev
    exact step_progress _ ev
  · obtain ⟨more, hmore⟩ := exists_completion _ _ hinv (Nat.le_refl _)
    refine ⟨more, ?_⟩
    show allFinished (run render (sched ++ more) (spawn kinds)) = true
    rw [run_append]
    exact hmore

/-- C6, at the five goroutines of `main` under a schedule in which every
goroutine reads `l.logs` before any writes it: all five have returned and five
`LOG` lines were printed, but the message sequence holds one entry.  When the
goroutines run one after the other the sequence holds five. -/
theorem log_lost_update (render : Time → String) :
    allFinished (run render lostUpdateSchedule (spawn mainWorkers)) = true ∧
    (run render lostUpdateSchedule (spawn mainWorkers)).pkg.heap.map (fun lg => lg.logs.length)
      = [1] ∧
    (run render lostUpdateSchedule (spawn mainWorkers)).pkg.stdout.countP isLogLine = 5 ∧
    allFinished (run render serialSchedule (spawn mainWorkers)) = true ∧
    (run render serialSchedule (spawn mainWorkers)).pkg.heap.map (fun lg => lg.logs.length)
      = [5] := by
  simp [run, lostUpdateSchedule, serialSchedule, List.replicate, step, stepG, spawn,
    mainWorkers, initPkg, println, newLogger, Logger.GetInitTime, allFinished, isLogLine]

/-- The two semantics agree: a goroutine that runs a bare `GetInstance` alone,
the mutex free, ends with the result and the package state of the sequential
`GetInstance`. -/
theorem solo_caller_refines (render : Time → String) (p : Pkg) (now : Time)
    (hm : p.once.m = false) :
    run render (List.replicate 11 (0, now))
        { pkg := p, gs := [{ pc := PC.start, kind := Kind.caller, logger := none }] } =
      { pkg := (GetInstance now p).2,
        gs := [{ pc := PC.finished, kind := Kind.caller,
                 logger := (GetInstance now p).1 }] } := by
  obtain ⟨heap, slot, ⟨done, m⟩, calls, out⟩ := p
  simp only at hm
  subst hm
  cases done with
  | true =>
    simp [run, step, stepG, List.replicate, GetInstance, onceDo, println]
  | false =>
    simp [run, step, stepG, List.replicate, GetInstance, onceDo, initClosure, newLogger,
      println]

end mylazylogger
